import Mathlib

/-!
# Verification of the rust-evm-indexer ingestion pipeline and read API

A shallow embedding of the repository's core code:

* `src/main.rs` — the continuous ingester loop (`run_continuous_ingester`):
  checkpoint read, head read, range computation, per-block processing with
  bounded-retry RPC fetches, and the per-block database transaction.
* `src/db.rs` — the store operations (`insert_block_data`,
  `insert_transaction_data`, `insert_log_data`, `set_last_synced_block`,
  `get_last_synced_block`) including their SQL conflict targets.
* `src/api.rs` — the read-API handlers: the `/logs` filter and pagination
  logic and the `/transaction/{hash}` handler.

Machine integers: block heights, timestamps and 256-bit quantities are
modelled as unbounded naturals (chain heights are far below `2^64`, and the
`u64 → i64` casts at the DB boundary are injective on `u64`); the one place
where 64-bit wrap-around is the point — the `/logs` pagination offset — is
modelled with explicit `% 2^64` arithmetic and an explicit reinterpreting
cast to `i64`.

Database transactions: a transaction is a buffered copy of the store state;
statements apply to the buffer and `commit` atomically publishes the buffer
as the durable state. A crash is modelled as executing only a prefix of the
operation trace of a block.
-/

/-! ## Constants (src/main.rs lines 21–27) -/

def POLL_INTERVAL_SECONDS : Nat := 10
def BLOCKS_PER_BATCH : Nat := 5
def DEFAULT_START_BLOCK : Nat := 23900790
def MAX_RECEIPT_RETRIES : Nat := 3
def BASE_RECEIPT_BACKOFF_SECONDS : Nat := 1
def MAX_BLOCK_FETCH_RETRIES : Nat := 3
def BASE_BLOCK_FETCH_BACKOFF_SECONDS : Nat := 2

/-! ## Hex formatting

`format!("{:#x}", v)` on an ethers `H256` / `Address` writes `0x` followed by
the value's bytes as zero-padded lowercase hex nibbles: 64 digits for a
32-byte hash, 40 for a 20-byte address. -/

def hexDigitChar (n : Nat) : Char :=
  if n < 10 then Char.ofNat (48 + n) else Char.ofNat (87 + n)

/-- The `w` lowercase hex digits of `v % 16^w`, most significant first. -/
def fixedHexDigits : Nat → Nat → List Char
  | 0, _ => []
  | w + 1, v => fixedHexDigits w (v / 16) ++ [hexDigitChar (v % 16)]

/-- `format!("{:#x}", v)` for a fixed-width value of `w` nibbles. -/
def formatFixedHex (w : Nat) (v : Nat) : String :=
  String.mk ('0' :: 'x' :: fixedHexDigits w v)

/-- `format!("{:#x}", h)` for an `H256` (32 bytes, 64 nibbles). -/
def fmtH256 (v : Nat) : String := formatFixedHex 64 v

/-- `format!("{:#x}", a)` for an `Address` (20 bytes, 40 nibbles). -/
def fmtAddr (v : Nat) : String := formatFixedHex 40 v

/-- ASCII lowering of one character, as Postgres `LOWER` acts on ASCII. -/
def lowerChar (c : Char) : Char :=
  if 65 ≤ c.toNat ∧ c.toNat ≤ 90 then Char.ofNat (c.toNat + 32) else c

/-- Model of SQL `LOWER` (and of Rust `to_lowercase` on ASCII data). -/
def sqlLower (s : String) : String := String.mk (s.data.map lowerChar)

/-- The comparison `LOWER(a) = LOWER(b)` built by the `/logs` handler. -/
def sqlLowerEq (a b : String) : Bool := sqlLower a == sqlLower b

/-- Rust's `s.starts_with("0x")`. -/
def startsWith0x (s : String) : Bool :=
  match s.data with
  | '0' :: 'x' :: _ => true
  | _ => false

def isLowerHexChar (c : Char) : Bool :=
  (48 ≤ c.toNat && c.toNat ≤ 57) || (97 ≤ c.toNat && c.toNat ≤ 102)

/-- Canonical serialized form: `0x`-prefixed, exactly `w` lowercase hex
digits (total length `w + 2`). -/
def IsCanonicalHex (w : Nat) (s : String) : Prop :=
  s.length = w + 2 ∧ startsWith0x s = true ∧
    ∀ c ∈ s.data.drop 2, isLowerHexChar c = true

/-! ## Ethers-level values as returned by the RPC provider -/

structure EthersTx where
  hash : Nat
  blockNumber : Option Nat
  blockHash : Option Nat
  transactionIndex : Option Nat
  fromAddr : Nat
  toAddr : Option Nat
  value : Nat
  gasPrice : Option Nat
  maxFeePerGas : Option Nat
  maxPriorityFeePerGas : Option Nat
  gas : Nat
  input : String
  deriving DecidableEq

structure EthersBlock where
  number : Option Nat
  hash : Option Nat
  parentHash : Nat
  timestamp : Nat
  gasUsed : Nat
  gasLimit : Nat
  baseFeePerGas : Option Nat
  transactions : List EthersTx
  deriving DecidableEq

structure EthersLogEntry where
  logIndex : Option Nat
  transactionHash : Option Nat
  transactionIndex : Option Nat
  blockNumber : Option Nat
  blockHash : Option Nat
  address : Nat
  payload : String
  topics : List Nat
  deriving DecidableEq

structure Receipt where
  status : Option Nat
  logs : List EthersLogEntry
  deriving DecidableEq

/-! ## The `My*` models (src/models.rs) and their construction in
`run_continuous_ingester` (src/main.rs lines 136–144, 176–190, 195–204) -/

structure MyBlock where
  block_number : Nat
  block_hash : Nat
  parent_hash : Nat
  timestamp : Nat
  gas_used : Nat
  gas_limit : Nat
  base_fee_per_gas : Option Nat
  deriving DecidableEq

structure MyTransaction where
  tx_hash : Nat
  block_number : Nat
  block_hash : Nat
  transaction_index : Option Nat
  from_address : Nat
  to_address : Option Nat
  value : Nat
  gas_price : Option Nat
  max_fee_per_gas : Option Nat
  max_priority_fee_per_gas : Option Nat
  gas : Nat
  input_data : String
  status : Option Nat
  deriving DecidableEq

structure MyLog where
  log_index : Option Nat
  transaction_hash : Nat
  transaction_index : Option Nat
  block_number : Nat
  block_hash : Nat
  address : Nat
  payload : String
  topics : List String
  deriving DecidableEq

/-- main.rs lines 136–144: `unwrap_or_default` on the optional fields. -/
def mkMyBlock (b : EthersBlock) : MyBlock :=
  { block_number := b.number.getD 0
    block_hash := b.hash.getD 0
    parent_hash := b.parentHash
    timestamp := b.timestamp
    gas_used := b.gasUsed
    gas_limit := b.gasLimit
    base_fee_per_gas := b.baseFeePerGas }

/-- main.rs lines 176–190; `status` is
`receipt_option.as_ref().and_then(|r| r.status)`. -/
def mkMyTransaction (t : EthersTx) (status : Option Nat) : MyTransaction :=
  { tx_hash := t.hash
    block_number := t.blockNumber.getD 0
    block_hash := t.blockHash.getD 0
    transaction_index := t.transactionIndex
    from_address := t.fromAddr
    to_address := t.toAddr
    value := t.value
    gas_price := t.gasPrice
    max_fee_per_gas := t.maxFeePerGas
    max_priority_fee_per_gas := t.maxPriorityFeePerGas
    gas := t.gas
    input_data := t.input
    status := status }

/-- main.rs lines 195–204: topics are serialized with `format!("{:#x}", h)`. -/
def mkMyLog (le : EthersLogEntry) : MyLog :=
  { log_index := le.logIndex
    transaction_hash := le.transactionHash.getD 0
    transaction_index := le.transactionIndex
    block_number := le.blockNumber.getD 0
    block_hash := le.blockHash.getD 0
    address := le.address
    payload := le.payload
    topics := le.topics.map fmtH256 }

/-! ## Stored rows, as serialized by src/db.rs -/

structure BlockRow where
  block_number : Nat
  block_hash : String
  parent_hash : String
  timestamp : Nat
  gas_used : String
  gas_limit : String
  base_fee_per_gas : Option String
  deriving DecidableEq

structure TxRow where
  tx_hash : String
  block_number : Nat
  block_hash : String
  transaction_index : Option Nat
  from_address : String
  to_address : Option String
  value : String
  gas_price : Option String
  max_fee_per_gas : Option String
  max_priority_fee_per_gas : Option String
  gas_provided : String
  input_data : String
  status : Option Nat
  deriving DecidableEq

structure LogRow where
  log_index_in_tx : Option Nat
  transaction_hash : String
  transaction_index_in_block : Option Nat
  block_number : Nat
  block_hash : String
  contract_address : String
  payload : String
  topic0 : Option String
  topic1 : Option String
  topic2 : Option String
  topic3 : Option String
  all_topics : List String
  deriving DecidableEq

/-- db.rs lines 50–55: the serialized field values of a block row. -/
def blockRowOf (b : MyBlock) : BlockRow :=
  { block_number := b.block_number
    block_hash := fmtH256 b.block_hash
    parent_hash := fmtH256 b.parent_hash
    timestamp := b.timestamp
    gas_used := toString b.gas_used
    gas_limit := toString b.gas_limit
    base_fee_per_gas := b.base_fee_per_gas.map toString }

/-- db.rs lines 85–96: the serialized field values of a transaction row. -/
def txRowOf (t : MyTransaction) : TxRow :=
  { tx_hash := fmtH256 t.tx_hash
    block_number := t.block_number
    block_hash := fmtH256 t.block_hash
    transaction_index := t.transaction_index
    from_address := fmtAddr t.from_address
    to_address := t.to_address.map fmtAddr
    value := toString t.value
    gas_price := t.gas_price.map toString
    max_fee_per_gas := t.max_fee_per_gas.map toString
    max_priority_fee_per_gas := t.max_priority_fee_per_gas.map toString
    gas_provided := toString t.gas
    input_data := t.input_data
    status := t.status }

/-- db.rs lines 132–141: the serialized field values of a log row. -/
def logRowOf (l : MyLog) : LogRow :=
  { log_index_in_tx := l.log_index
    transaction_hash := fmtH256 l.transaction_hash
    transaction_index_in_block := l.transaction_index
    block_number := l.block_number
    block_hash := fmtH256 l.block_hash
    contract_address := fmtAddr l.address
    payload := l.payload
    topic0 := l.topics.get? 0
    topic1 := l.topics.get? 1
    topic2 := l.topics.get? 2
    topic3 := l.topics.get? 3
    all_topics := l.topics }

/-! ## The store state and the insert statements of src/db.rs -/

/-- The `logs` table: rows carry the serial `id` assigned at insert time;
`nextId` models the Postgres sequence backing the `id` column. -/
structure LogsTable where
  nextId : Nat
  rows : List (Nat × LogRow)
  deriving DecidableEq

structure DbState where
  blocks : List BlockRow
  txs : List TxRow
  logs : LogsTable
  /-- the `indexer_status` row for `indexer_name = "evm_main_sync"` —
  the only name the code uses. -/
  checkpoint : Option Nat
  deriving DecidableEq

/-- `INSERT … ON CONFLICT (block_number) DO NOTHING` (db.rs line 63). -/
def insertBlockRow (tbl : List BlockRow) (r : BlockRow) : List BlockRow :=
  if tbl.any (fun q => q.block_number == r.block_number) then tbl else tbl ++ [r]

/-- `INSERT … ON CONFLICT (tx_hash) DO NOTHING` (db.rs line 105). -/
def insertTxRow (tbl : List TxRow) (r : TxRow) : List TxRow :=
  if tbl.any (fun q => q.tx_hash == r.tx_hash) then tbl else tbl ++ [r]

/-- `INSERT … ON CONFLICT (id) DO NOTHING` (db.rs line 150): the conflict
target is the serial surrogate key `id`, freshly drawn from the sequence,
not the natural key `(transaction_hash, log_index_in_tx)`. -/
def insertLogRow (t : LogsTable) (r : LogRow) : LogsTable :=
  if t.rows.any (fun q => q.1 == t.nextId) then t
  else { nextId := t.nextId + 1, rows := t.rows ++ [(t.nextId, r)] }

/-- `insert_block_data` (db.rs lines 45–77). -/
def insert_block_data (db : DbState) (b : MyBlock) : DbState :=
  { db with blocks := insertBlockRow db.blocks (blockRowOf b) }

/-- `insert_transaction_data` (db.rs lines 80–124). -/
def insert_transaction_data (db : DbState) (t : MyTransaction) : DbState :=
  { db with txs := insertTxRow db.txs (txRowOf t) }

/-- `insert_log_data` (db.rs lines 127–168). -/
def insert_log_data (db : DbState) (l : MyLog) : DbState :=
  { db with logs := insertLogRow db.logs (logRowOf l) }

/-- `set_last_synced_block` (db.rs lines 22–42): upsert of the
`indexer_status` row. -/
def set_last_synced_block (db : DbState) (n : Nat) : DbState :=
  { db with checkpoint := some n }

/-- `get_last_synced_block` (db.rs lines 10–18). -/
def get_last_synced_block (db : DbState) : Option Nat := db.checkpoint

/-- The Postgres sequence never hands out an `id` already present in the
table; every reachable `logs` table satisfies this. -/
def LogsWf (t : LogsTable) : Prop := ∀ p ∈ t.rows, p.1 < t.nextId

instance (t : LogsTable) : Decidable (LogsWf t) := by
  unfold LogsWf; infer_instance

/-! ## RPC fetch with bounded retry (src/main.rs lines 99–126 and 153–173)

A provider is an oracle mapping the attempt number (1-based) to that
attempt's RPC outcome; `.err` is a transient error. Each fetch returns its
result, the number of RPC calls made, and the list of backoff sleeps (in
seconds) performed between consecutive attempts. -/

inductive RpcResult (α : Type) where
  | ok (a : α)
  | err
  deriving DecidableEq

inductive BlockFetch where
  | found (b : EthersBlock)
  | missing
  | failed
  deriving DecidableEq

/-- The `for attempt in 1..=MAX_BLOCK_FETCH_RETRIES` loop of main.rs
lines 99–126, with `fuel` the number of attempts still allowed. -/
def fetchBlockAux (prov : Nat → RpcResult (Option EthersBlock)) :
    Nat → Nat → BlockFetch × Nat × List Nat
  | _, 0 => (.failed, 0, [])
  | attempt, fuel + 1 =>
    match prov attempt with
    | .ok (some b) => (.found b, 1, [])
    | .ok none => (.missing, 1, [])
    | .err =>
      if fuel = 0 then (.failed, 1, [])
      else
        let r := fetchBlockAux prov (attempt + 1) fuel
        (r.1, r.2.1 + 1, BASE_BLOCK_FETCH_BACKOFF_SECONDS * 2 ^ (attempt - 1) :: r.2.2)

def fetchBlockWithRetry (prov : Nat → RpcResult (Option EthersBlock)) :
    BlockFetch × Nat × List Nat :=
  fetchBlockAux prov 1 MAX_BLOCK_FETCH_RETRIES

/-- The `for attempt in 1..=MAX_RECEIPT_RETRIES` loop of main.rs
lines 153–173. `Ok(r_opt)` breaks immediately whether or not a receipt was
found; result `none` means the retries were exhausted (FAIL). -/
def fetchReceiptAux (prov : Nat → RpcResult (Option Receipt)) :
    Nat → Nat → Option (Option Receipt) × Nat × List Nat
  | _, 0 => (none, 0, [])
  | attempt, fuel + 1 =>
    match prov attempt with
    | .ok ropt => (some ropt, 1, [])
    | .err =>
      if fuel = 0 then (none, 1, [])
      else
        let r := fetchReceiptAux prov (attempt + 1) fuel
        (r.1, r.2.1 + 1, BASE_RECEIPT_BACKOFF_SECONDS * 2 ^ (attempt - 1) :: r.2.2)

def fetchReceiptWithRetry (prov : Nat → RpcResult (Option Receipt)) :
    Option (Option Receipt) × Nat × List Nat :=
  fetchReceiptAux prov 1 MAX_RECEIPT_RETRIES

/-! ## PROCESS_BLOCK (src/main.rs lines 95–215)

The body of the per-block `async` block. All database statements go through
the transaction `db_tx`; we record them as a trace of operations, and give
transaction semantics (buffer + atomic commit) to the trace separately, so
that a crash is precisely a prefix of the trace. -/

/-- Per-block RPC oracle: the block fetch outcomes by attempt, and for the
transaction at position `idx` in the block, its receipt fetch outcomes by
attempt. -/
structure BlockOracle where
  blockResp : Nat → RpcResult (Option EthersBlock)
  receiptResp : Nat → Nat → RpcResult (Option Receipt)

inductive DbOp where
  | insBlock (b : MyBlock)
  | insTx (t : MyTransaction)
  | insLog (l : MyLog)
  | setCkpt (n : Nat)
  | commitTx
  deriving DecidableEq

inductive BlockOutcome where
  | committedFull
  | skipped
  | failed
  deriving DecidableEq

/-- main.rs lines 149–208: iterate the block's transactions in order; a
receipt whose retries are exhausted aborts the block (the statements already
issued stay in the rolled-back transaction); an absent receipt records the
transaction with `status = none` and no logs. Returns whether all
transactions succeeded, and the statements issued. -/
def txsOps (ora : BlockOracle) : Nat → List EthersTx → Bool × List DbOp
  | _, [] => (true, [])
  | idx, t :: rest =>
    match (fetchReceiptWithRetry (ora.receiptResp idx)).1 with
    | none => (false, [])
    | some ropt =>
      let myTx := mkMyTransaction t (ropt.bind Receipt.status)
      let logIns : List DbOp :=
        match ropt with
        | none => []
        | some r => r.logs.map (fun le => .insLog (mkMyLog le))
      let rec' := txsOps ora (idx + 1) rest
      (rec'.1, (.insTx myTx :: logIns) ++ rec'.2)

/-- The statement trace of PROCESS_BLOCK(n) and its outcome:
`committedFull` = `Ok(true)` (rows + checkpoint committed), `skipped` =
`Ok(false)` (provider said the block is missing; the empty transaction is
committed), `failed` = `Err(_)` (transaction dropped, i.e. rolled back). -/
def processCore (ora : BlockOracle) (n : Nat) : BlockOutcome × List DbOp :=
  match (fetchBlockWithRetry ora.blockResp).1 with
  | .failed => (.failed, [])
  | .missing => (.skipped, [.commitTx])
  | .found b =>
    let t := txsOps ora 0 b.transactions
    let ops := DbOp.insBlock (mkMyBlock b) :: t.2
    if t.1 then (.committedFull, ops ++ [.setCkpt n, .commitTx])
    else (.failed, ops)

/-- Apply one statement to the transaction buffer. -/
def applyOp (db : DbState) : DbOp → DbState
  | .insBlock b => insert_block_data db b
  | .insTx t => insert_transaction_data db t
  | .insLog l => insert_log_data db l
  | .setCkpt n => set_last_synced_block db n
  | .commitTx => db

/-- Buffered-transaction semantics: `d` is the durable state, `b` the
transaction's view; `commitTx` atomically publishes the view. -/
def runOpsAux : DbState → DbState → List DbOp → DbState × DbState
  | d, b, [] => (d, b)
  | d, b, op :: rest =>
    match op with
    | .commitTx => runOpsAux b b rest
    | _ => runOpsAux d (applyOp b op) rest

/-- The durable state after executing the first `ops` statements of a block
transaction that began on durable state `db`. -/
def durableAfter (db : DbState) (ops : List DbOp) : DbState :=
  (runOpsAux db db ops).1

/-- PROCESS_BLOCK(n): run the whole trace; the first component is the
outcome, the second the durable state afterwards. -/
def processBlock (ora : BlockOracle) (n : Nat) (db : DbState) :
    BlockOutcome × DbState :=
  let c := processCore ora n
  (c.1, durableAfter db c.2)

/-! ## The batch loop and the polling cycle (src/main.rs lines 37–248) -/

/-- main.rs lines 92–235: `for block_num_u64 in start..=end`, recording the
heights attempted and the checkpoint values committed; `Err` breaks out of
the batch. -/
def runBatch (ora : Nat → BlockOracle) : List Nat → DbState → DbState × List Nat × List Nat
  | [], db => (db, [], [])
  | n :: rest, db =>
    let p := processBlock (ora n) n db
    match p.1 with
    | .failed => (p.2, [n], [])
    | .skipped =>
      let r := runBatch ora rest p.2
      (r.1, n :: r.2.1, r.2.2)
    | .committedFull =>
      let r := runBatch ora rest p.2
      (r.1, n :: r.2.1, n :: r.2.2)

/-- main.rs lines 47–58: `last_block + 1`, or the project default when no
checkpoint row exists. -/
def cycleStart (ckpt : Option Nat) : Nat :=
  match ckpt with
  | some lastBlock => lastBlock + 1
  | none => DEFAULT_START_BLOCK

/-- One cycle's external conditions: whether `get_last_synced_block`
succeeded, what `get_block_number` returned (`none` = transient failure),
and the per-height RPC oracle. -/
structure CycleOracle where
  ckptReadOk : Bool
  head : Option Nat
  perBlock : Nat → BlockOracle

/-- One iteration of the outer `loop` (main.rs lines 37–248). Returns the
new durable state, the heights attempted, and the checkpoint values
committed, in order. The failure branches and the caught-up branch sleep
and retry without touching the store. -/
def runCycle (co : CycleOracle) (db : DbState) : DbState × List Nat × List Nat :=
  if co.ckptReadOk = false then (db, [], [])
  else
    match co.head with
    | none => (db, [], [])
    | some head =>
      let start := cycleStart (get_last_synced_block db)
      if start > head then (db, [], [])
      else
        let endB := min (start + BLOCKS_PER_BATCH - 1) head
        if start > endB then (db, [], [])
        else runBatch co.perBlock (List.range' start (endB + 1 - start)) db

/-- A run of successive cycles; for each cycle we record the checkpoint
value read at its start and the checkpoint values it committed. -/
def runCycles : List CycleOracle → DbState → DbState × List (Option Nat × List Nat)
  | [], db => (db, [])
  | co :: rest, db =>
    let r := runCycle co db
    let t := runCycles rest r.1
    (t.1, (get_last_synced_block db, r.2.2) :: t.2)

/-! ## Read API (src/api.rs) -/

/-- The `/logs` request body (src/api_models.rs); `page` and `page_size`
default to 1 and 25 during deserialization. -/
structure GetLogsFilter where
  from_block : Option Nat
  to_block : Option Nat
  address : Option String
  topic0 : Option String
  topic1 : Option String
  topic2 : Option String
  topic3 : Option String
  block_hash : Option String
  page : Nat
  page_size : Nat

def MAX_PAGE_SIZE : Nat := 100

/-- api.rs line 85: `filters.page.max(1)`. -/
def pageOf (f : GetLogsFilter) : Nat := max f.page 1

/-- api.rs line 86: `filters.page_size.min(MAX_PAGE_SIZE).max(1)`. -/
def pageSizeOf (f : GetLogsFilter) : Nat := max (min f.page_size MAX_PAGE_SIZE) 1

/-- api.rs line 87: `let offset = (page - 1) * page_size;` in `u64`
arithmetic — the product wraps modulo `2^64` (release-profile semantics). -/
def offsetU64 (f : GetLogsFilter) : Nat :=
  ((pageOf f - 1) * pageSizeOf f) % 2 ^ 64

/-- api.rs line 153: `offset as i64` — reinterpretation of the 64-bit
pattern as a signed value. -/
def u64AsI64 (n : Nat) : Int :=
  if n < 2 ^ 63 then (n : Int) else (n : Int) - 2 ^ 64

/-- The SQL OFFSET value the `/logs` handler binds. -/
def boundOffset (f : GetLogsFilter) : Int := u64AsI64 (offsetU64 f)

/-- `AND LOWER(topicN) = LOWER($v)` against a nullable column: a NULL
column never compares equal. -/
def topicMatches (col : Option String) (filt : Option String) : Bool :=
  match filt with
  | none => true
  | some fv =>
    match col with
    | none => false
    | some cv => sqlLowerEq cv fv

/-- The WHERE clause built by `get_logs_handler` (api.rs lines 96–143):
`blockHash` overrides the `fromBlock`/`toBlock` range; address and topic
filters are ANDed; hex comparisons go through `LOWER(..) = LOWER(..)`. -/
def logRowMatches (f : GetLogsFilter) (r : LogRow) : Bool :=
  (match f.block_hash with
   | some bh => sqlLowerEq r.block_hash bh
   | none =>
     (match f.from_block with
      | some fb => decide (fb ≤ r.block_number)
      | none => true) &&
     (match f.to_block with
      | some tb => decide (r.block_number ≤ tb)
      | none => true)) &&
  topicMatches (some r.contract_address) f.address &&
  topicMatches r.topic0 f.topic0 &&
  topicMatches r.topic1 f.topic1 &&
  topicMatches r.topic2 f.topic2 &&
  topicMatches r.topic3 f.topic3

/-- HTTP statuses produced by `ApiError::into_response` (api.rs
lines 30–53). -/
inductive ApiOutcome (α : Type) where
  | ok (a : α)
  | notFound (msg : String)
  | badRequest (msg : String)
  deriving DecidableEq

def ApiOutcome.statusCode {α : Type} : ApiOutcome α → Nat
  | .ok _ => 200
  | .notFound _ => 404
  | .badRequest _ => 400

/-- api.rs lines 296–309: the parameter is not validated — `0x` is
prepended when absent and the string is lowercased before the lookup. -/
def formattedTxHashParam (p : String) : String :=
  sqlLower (if startsWith0x p then p else String.mk ('0' :: 'x' :: p.data))

/-- `get_transaction_by_hash_handler` (api.rs lines 287–359) as a function
of the path parameter and the `transactions` table. -/
def getTransactionByHash (db : DbState) (p : String) : ApiOutcome TxRow :=
  match db.txs.find? (fun r => r.tx_hash == formattedTxHashParam p) with
  | some row => .ok row
  | none => .notFound ("Transaction " ++ p ++ " not found")

/-- The spec's well-formedness condition on the path parameter: a
`0x`-prefixed 66-character hash. -/
def isWellFormedHashParam (p : String) : Bool :=
  startsWith0x p && p.length == 66

/-! ## Facts about the hex serialization -/

theorem fixedHexDigits_length (w : Nat) : ∀ v, (fixedHexDigits w v).length = w := by
  induction w with
  | zero => intro v; rfl
  | succ w ih =>
    intro v
    simp [fixedHexDigits, ih]

theorem hexDigitChar_lowerHex {n : Nat} (h : n < 16) :
    isLowerHexChar (hexDigitChar n) = true := by
  interval_cases n <;> decide

theorem fixedHexDigits_lowerHex (w : Nat) :
    ∀ v, ∀ c ∈ fixedHexDigits w v, isLowerHexChar c = true := by
  induction w with
  | zero => intro v c hc; simp [fixedHexDigits] at hc
  | succ w ih =>
    intro v c hc
    simp only [fixedHexDigits, List.mem_append, List.mem_singleton] at hc
    rcases hc with hc | hc
    · exact ih _ c hc
    · subst hc; exact hexDigitChar_lowerHex (Nat.mod_lt _ (by norm_num))

theorem isCanonicalHex_formatFixedHex (w v : Nat) :
    IsCanonicalHex w (formatFixedHex w v) := by
  refine ⟨?_, rfl, ?_⟩
  · show (('0' :: 'x' :: fixedHexDigits w v).length) = w + 2
    simp [fixedHexDigits_length]
  · intro c hc
    simp only [formatFixedHex, List.drop_succ_cons, List.drop_zero] at hc
    exact fixedHexDigits_lowerHex w v c hc

theorem lowerChar_of_lowerHex {c : Char} (h : isLowerHexChar c = true) :
    lowerChar c = c := by
  simp only [isLowerHexChar, Bool.or_eq_true, Bool.and_eq_true, decide_eq_true_eq] at h
  unfold lowerChar
  rw [if_neg]
  omega

/-- The stored serialization is already lowercase: SQL `LOWER` fixes it. -/
theorem sqlLower_formatFixedHex (w v : Nat) :
    sqlLower (formatFixedHex w v) = formatFixedHex w v := by
  unfold sqlLower formatFixedHex
  congr 1
  have hfix : ∀ c ∈ ('0' :: 'x' :: fixedHexDigits w v), lowerChar c = c := by
    intro c hc
    rcases List.mem_cons.mp hc with h | hc
    · subst h; decide
    rcases List.mem_cons.mp hc with h | hc
    · subst h; decide
    · exact lowerChar_of_lowerHex (fixedHexDigits_lowerHex w v c hc)
  calc ('0' :: 'x' :: fixedHexDigits w v).map lowerChar
      = ('0' :: 'x' :: fixedHexDigits w v).map id := List.map_congr_left hfix
    _ = '0' :: 'x' :: fixedHexDigits w v := List.map_id _

/-! ## Shared concrete fixtures -/

def emptyLogs : LogsTable := { nextId := 1, rows := [] }

def emptyDb : DbState :=
  { blocks := [], txs := [], logs := emptyLogs, checkpoint := none }

/-! ## Store idempotency facts (claim C2) -/

theorem insertBlockRow_replay (tbl : List BlockRow) (r : BlockRow) :
    insertBlockRow (insertBlockRow tbl r) r = insertBlockRow tbl r := by
  unfold insertBlockRow
  cases h : tbl.any (fun q => q.block_number == r.block_number) with
  | true => simp [h]
  | false =>
    have h2 : (tbl ++ [r]).any (fun q => q.block_number == r.block_number) = true := by
      simp [List.any_append]
    simp [h, h2]

theorem insertTxRow_replay (tbl : List TxRow) (r : TxRow) :
    insertTxRow (insertTxRow tbl r) r = insertTxRow tbl r := by
  unfold insertTxRow
  cases h : tbl.any (fun q => q.tx_hash == r.tx_hash) with
  | true => simp [h]
  | false =>
    have h2 : (tbl ++ [r]).any (fun q => q.tx_hash == r.tx_hash) = true := by
      simp [List.any_append]
    simp [h, h2]

/-- With a fresh serial `id`, the `ON CONFLICT (id)` clause never fires:
the insert appends unconditionally. -/
theorem insertLogRow_append {t : LogsTable} (r : LogRow) (hwf : LogsWf t) :
    insertLogRow t r = { nextId := t.nextId + 1, rows := t.rows ++ [(t.nextId, r)] } := by
  have hc : t.rows.any (fun q => q.1 == t.nextId) = false := by
    rw [List.any_eq_false]
    intro p hp
    simp [Nat.ne_of_lt (hwf p hp)]
  unfold insertLogRow
  simp [hc]

theorem logsWf_insert {t : LogsTable} (r : LogRow) (hwf : LogsWf t) :
    LogsWf (insertLogRow t r) := by
  rw [insertLogRow_append r hwf]
  intro p hp
  rcases List.mem_append.mp hp with hp | hp
  · exact Nat.lt_succ_of_lt (hwf p hp)
  · simp only [List.mem_singleton] at hp
    subst hp
    exact Nat.lt_succ_self _

def c2Log : MyLog :=
  { log_index := some 0, transaction_hash := 1, transaction_index := some 0,
    block_number := 1, block_hash := 2, address := 3, payload := "0x",
    topics := [] }

/-- C2 (counterexample): replaying `insert_log_data` with an identical
input does *not* leave the `logs` table unchanged — the conflict target is
the surrogate serial `id`, which is fresh on every insert, so the replay
appends a duplicate row rather than being a conflict-do-nothing no-op on
`(tx_hash, log_index)`. -/
theorem replay_log_insert_duplicates :
    insert_log_data (insert_log_data emptyDb c2Log) c2Log ≠ insert_log_data emptyDb c2Log ∧
    (insert_log_data (insert_log_data emptyDb c2Log) c2Log).logs.rows.length = 2 ∧
    (insert_log_data emptyDb c2Log).logs.rows.length = 1 := by
  refine ⟨?_, rfl, rfl⟩
  intro h
  have h2 := congrArg (fun d => d.logs.rows.length) h
  exact absurd (h2 : (2 : Nat) = 1) (by decide)

/-- C2 (amended): block and transaction inserts are conflict-do-nothing
no-ops on their natural keys (`block_number`, `tx_hash`) under replay, but
the log insert conflicts only on the fresh surrogate `id`, so replaying it
grows the `logs` table by one row each time. -/
theorem replay_semantics (db : DbState) (b : MyBlock) (t : MyTransaction)
    (l : MyLog) (hwf : LogsWf db.logs) :
    insert_block_data (insert_block_data db b) b = insert_block_data db b ∧
    insert_transaction_data (insert_transaction_data db t) t = insert_transaction_data db t ∧
    (insert_log_data (insert_log_data db l) l).logs.rows.length = db.logs.rows.length + 2 := by
  refine ⟨?_, ?_, ?_⟩
  · unfold insert_block_data
    simp [insertBlockRow_replay]
  · unfold insert_transaction_data
    simp [insertTxRow_replay]
  · have h1 := insertLogRow_append (logRowOf l) hwf
    have h2 := insertLogRow_append (logRowOf l) (logsWf_insert (logRowOf l) hwf)
    show (insertLogRow (insertLogRow db.logs (logRowOf l)) (logRowOf l)).rows.length = _
    rw [h2]
    simp [h1]

def c2Block : MyBlock :=
  mkMyBlock { number := some 7, hash := some 8, parentHash := 9, timestamp := 0,
              gasUsed := 0, gasLimit := 0, baseFeePerGas := none, transactions := [] }

def c2Tx : MyTransaction :=
  mkMyTransaction
    { hash := 5, blockNumber := some 7, blockHash := some 8,
      transactionIndex := some 0, fromAddr := 1, toAddr := none, value := 0,
      gasPrice := none, maxFeePerGas := none, maxPriorityFeePerGas := none,
      gas := 0, input := "0x" } none

/-- C2 (amended, witness): the replay semantics at a concrete store. -/
theorem replay_semantics_witness :
    insert_block_data (insert_block_data emptyDb c2Block) c2Block = insert_block_data emptyDb c2Block ∧
    insert_transaction_data (insert_transaction_data emptyDb c2Tx) c2Tx = insert_transaction_data emptyDb c2Tx ∧
    (insert_log_data (insert_log_data emptyDb c2Log) c2Log).logs.rows.length = emptyDb.logs.rows.length + 2 :=
  replay_semantics emptyDb c2Block c2Tx c2Log (by intro p hp; simp [emptyDb, emptyLogs] at hp)

/-! ## The `/transaction/{hash}` handler (claim C8) -/

/-- C8 (counterexample): the path parameter `"zzz"` is not a
`0x`-prefixed 66-character hash, yet the handler does not return
400 BadRequest — it normalizes the string, finds no row, and returns
404 NotFound. -/
theorem malformed_tx_hash_not_bad_request :
    isWellFormedHashParam "zzz" = false ∧
    (getTransactionByHash emptyDb "zzz").statusCode = 404 ∧
    (getTransactionByHash emptyDb "zzz").statusCode ≠ 400 := by
  decide

/-- C8 (amended): the handler performs no format validation at all: for
every path parameter — well-formed or not — it prepends `0x` when absent,
lowercases, and looks the result up; when no row matches it returns
404 NotFound, and it never returns 400 BadRequest on any input. -/
theorem tx_hash_handler_no_validation (db : DbState) (p : String)
    (hmiss : db.txs.find? (fun r => r.tx_hash == formattedTxHashParam p) = none) :
    getTransactionByHash db p = .notFound ("Transaction " ++ p ++ " not found") ∧
    (getTransactionByHash db p).statusCode = 404 ∧
    (getTransactionByHash db p).statusCode ≠ 400 := by
  have hh : getTransactionByHash db p = .notFound ("Transaction " ++ p ++ " not found") := by
    unfold getTransactionByHash
    rw [hmiss]
  refine ⟨hh, ?_, ?_⟩ <;> rw [hh] <;> simp [ApiOutcome.statusCode]

/-- C8 (amended, witness). -/
theorem tx_hash_handler_no_validation_witness :
    getTransactionByHash emptyDb "zzz" = .notFound ("Transaction " ++ "zzz" ++ " not found") ∧
    (getTransactionByHash emptyDb "zzz").statusCode = 404 ∧
    (getTransactionByHash emptyDb "zzz").statusCode ≠ 400 :=
  tx_hash_handler_no_validation emptyDb "zzz" rfl

/-! ## The `/logs` pagination offset (claim C10) -/

def c10Filter : GetLogsFilter :=
  { from_block := none, to_block := none, address := none, topic0 := none,
    topic1 := none, topic2 := none, topic3 := none, block_hash := none,
    page := 2 ^ 63, page_size := 2 }

/-- C10: the `/logs` offset is `(max(page,1) - 1) * clamp(pageSize)` in
wrapping 64-bit arithmetic, then reinterpreted as a signed 64-bit OFFSET;
the valid body `{page := 2^63, pageSize := 2}` wraps the product modulo
`2^64` and binds OFFSET `-2` instead of being rejected. -/
theorem logs_offset_wraps_negative :
    (∀ f : GetLogsFilter,
      boundOffset f = u64AsI64 ((max f.page 1 - 1) * max (min f.page_size 100) 1 % 2 ^ 64)) ∧
    c10Filter.page < 2 ^ 64 ∧ c10Filter.page_size < 2 ^ 64 ∧
    offsetU64 c10Filter = 2 ^ 64 - 2 ∧
    boundOffset c10Filter = -2 ∧ boundOffset c10Filter < 0 := by
  refine ⟨fun f => rfl, by norm_num [c10Filter], by norm_num [c10Filter], ?_, ?_, ?_⟩
  · norm_num [offsetU64, pageOf, pageSizeOf, MAX_PAGE_SIZE, c10Filter]
  · norm_num [boundOffset, offsetU64, u64AsI64, pageOf, pageSizeOf, MAX_PAGE_SIZE, c10Filter]
  · norm_num [boundOffset, offsetU64, u64AsI64, pageOf, pageSizeOf, MAX_PAGE_SIZE, c10Filter]

/-! ## Canonical hex form and case-insensitive matching (claim C9) -/

/-- Two `/logs` filters that differ only in the letter case of their hex
fields (block hash, contract address, topics); range and pagination fields
agree. -/
def FilterCaseEquiv (f g : GetLogsFilter) : Prop :=
  f.from_block = g.from_block ∧ f.to_block = g.to_block ∧
  f.address.map sqlLower = g.address.map sqlLower ∧
  f.topic0.map sqlLower = g.topic0.map sqlLower ∧
  f.topic1.map sqlLower = g.topic1.map sqlLower ∧
  f.topic2.map sqlLower = g.topic2.map sqlLower ∧
  f.topic3.map sqlLower = g.topic3.map sqlLower ∧
  f.block_hash.map sqlLower = g.block_hash.map sqlLower

theorem sqlLowerEq_congr (s : String) {x y : String}
    (h : sqlLower x = sqlLower y) : sqlLowerEq s x = sqlLowerEq s y := by
  simp [sqlLowerEq, h]

theorem topicMatches_congr (col : Option String) {x y : Option String}
    (h : x.map sqlLower = y.map sqlLower) :
    topicMatches col x = topicMatches col y := by
  cases x with
  | none => cases y with
    | none => rfl
    | some w => simp at h
  | some v => cases y with
    | none => simp at h
    | some w =>
      simp only [Option.map_some', Option.some.injEq] at h
      cases col with
      | none => rfl
      | some cv => simp [topicMatches, sqlLowerEq_congr cv h]

/-- C9: every hash and address the store writes — block hashes, parent
hashes, transaction hashes, from/to addresses, log block hashes, contract
addresses and topics — is serialized as lowercase `0x`-prefixed hex of
canonical length (66 characters for 32-byte hashes, 42 for addresses), the
serialization is fixed by SQL `LOWER`, and the `/logs` filter comparisons
on hex fields are case-insensitive: filters differing only in case select
the same rows. -/
theorem canonical_hex_and_case_insensitive_filters :
    (∀ b : MyBlock, IsCanonicalHex 64 (blockRowOf b).block_hash ∧
      IsCanonicalHex 64 (blockRowOf b).parent_hash) ∧
    (∀ t : MyTransaction, IsCanonicalHex 64 (txRowOf t).tx_hash ∧
      IsCanonicalHex 64 (txRowOf t).block_hash ∧
      IsCanonicalHex 40 (txRowOf t).from_address ∧
      ∀ a ∈ (txRowOf t).to_address, IsCanonicalHex 40 a) ∧
    (∀ le : EthersLogEntry,
      IsCanonicalHex 64 (logRowOf (mkMyLog le)).transaction_hash ∧
      IsCanonicalHex 64 (logRowOf (mkMyLog le)).block_hash ∧
      IsCanonicalHex 40 (logRowOf (mkMyLog le)).contract_address ∧
      ∀ tp ∈ (logRowOf (mkMyLog le)).all_topics, IsCanonicalHex 64 tp) ∧
    (∀ w v, sqlLower (formatFixedHex w v) = formatFixedHex w v) ∧
    (∀ f g : GetLogsFilter, FilterCaseEquiv f g →
      ∀ r : LogRow, logRowMatches f r = logRowMatches g r) := by
  refine ⟨?_, ?_, ?_, sqlLower_formatFixedHex, ?_⟩
  · intro b
    exact ⟨isCanonicalHex_formatFixedHex 64 _, isCanonicalHex_formatFixedHex 64 _⟩
  · intro t
    refine ⟨isCanonicalHex_formatFixedHex 64 _, isCanonicalHex_formatFixedHex 64 _,
            isCanonicalHex_formatFixedHex 40 _, ?_⟩
    intro a ha
    simp only [txRowOf, Option.mem_def, Option.map_eq_some'] at ha
    obtain ⟨x, _, hx⟩ := ha
    exact hx ▸ isCanonicalHex_formatFixedHex 40 x
  · intro le
    refine ⟨isCanonicalHex_formatFixedHex 64 _, isCanonicalHex_formatFixedHex 64 _,
            isCanonicalHex_formatFixedHex 40 _, ?_⟩
    intro tp htp
    simp only [logRowOf, mkMyLog, List.mem_map] at htp
    obtain ⟨x, _, hx⟩ := htp
    exact hx ▸ isCanonicalHex_formatFixedHex 64 x
  · intro f g h r
    obtain ⟨h1, h2, h3, h4, h5, h6, h7, h8⟩ := h
    have ht3 := topicMatches_congr (some r.contract_address) h3
    have ht4 := topicMatches_congr r.topic0 h4
    have ht5 := topicMatches_congr r.topic1 h5
    have ht6 := topicMatches_congr r.topic2 h6
    have ht7 := topicMatches_congr r.topic3 h7
    cases hf : f.block_hash with
    | none =>
      cases hg : g.block_hash with
      | none => simp only [logRowMatches, hf, hg, h1, h2, ht3, ht4, ht5, ht6, ht7]
      | some w => rw [hf, hg] at h8; simp at h8
    | some v =>
      cases hg : g.block_hash with
      | none => rw [hf, hg] at h8; simp at h8
      | some w =>
        rw [hf, hg] at h8
        simp only [Option.map_some', Option.some.injEq] at h8
        have hb := sqlLowerEq_congr r.block_hash h8
        simp only [logRowMatches, hf, hg, hb, ht3, ht4, ht5, ht6, ht7]

/-- C9 (witness): a concrete mixed-case filter selects exactly what its
lowercase twin selects. -/
theorem canonical_hex_case_witness :
    ∀ r : LogRow,
      logRowMatches
        { from_block := none, to_block := none, address := some "0xAB", topic0 := none,
          topic1 := none, topic2 := none, topic3 := none, block_hash := none,
          page := 1, page_size := 25 } r =
      logRowMatches
        { from_block := none, to_block := none, address := some "0xab", topic0 := none,
          topic1 := none, topic2 := none, topic3 := none, block_hash := none,
          page := 1, page_size := 25 } r :=
  canonical_hex_and_case_insensitive_filters.2.2.2.2 _ _
    ⟨rfl, rfl, by decide, rfl, rfl, rfl, rfl, rfl⟩

/-! ## Bounded retry with exponential backoff (claim C5) -/

/-- Full evaluation of the block-fetch retry loop by cases on the first
three provider outcomes. -/
theorem fetchBlock_eval (prov : Nat → RpcResult (Option EthersBlock)) :
    fetchBlockWithRetry prov =
      match prov 1 with
      | .ok (some b) => (.found b, 1, [])
      | .ok none => (.missing, 1, [])
      | .err =>
        match prov 2 with
        | .ok (some b) => (.found b, 2, [2])
        | .ok none => (.missing, 2, [2])
        | .err =>
          match prov 3 with
          | .ok (some b) => (.found b, 3, [2, 4])
          | .ok none => (.missing, 3, [2, 4])
          | .err => (.failed, 3, [2, 4]) := by
  cases h1 : prov 1 with
  | ok o =>
    cases o <;>
      simp [fetchBlockWithRetry, MAX_BLOCK_FETCH_RETRIES, fetchBlockAux, h1]
  | err =>
    cases h2 : prov 2 with
    | ok o =>
      cases o <;>
        simp [fetchBlockWithRetry, MAX_BLOCK_FETCH_RETRIES, fetchBlockAux, h1, h2,
              BASE_BLOCK_FETCH_BACKOFF_SECONDS]
    | err =>
      cases h3 : prov 3 with
      | ok o =>
        cases o <;>
          simp [fetchBlockWithRetry, MAX_BLOCK_FETCH_RETRIES, fetchBlockAux, h1, h2, h3,
                BASE_BLOCK_FETCH_BACKOFF_SECONDS]
      | err =>
        simp [fetchBlockWithRetry, MAX_BLOCK_FETCH_RETRIES, fetchBlockAux, h1, h2, h3,
              BASE_BLOCK_FETCH_BACKOFF_SECONDS]

/-- Full evaluation of the receipt-fetch retry loop by cases on the first
three provider outcomes. -/
theorem fetchReceipt_eval (prov : Nat → RpcResult (Option Receipt)) :
    fetchReceiptWithRetry prov =
      match prov 1 with
      | .ok ropt => (some ropt, 1, [])
      | .err =>
        match prov 2 with
        | .ok ropt => (some ropt, 2, [1])
        | .err =>
          match prov 3 with
          | .ok ropt => (some ropt, 3, [1, 2])
          | .err => (none, 3, [1, 2]) := by
  cases h1 : prov 1 with
  | ok o =>
    simp [fetchReceiptWithRetry, MAX_RECEIPT_RETRIES, fetchReceiptAux, h1]
  | err =>
    cases h2 : prov 2 with
    | ok o =>
      simp [fetchReceiptWithRetry, MAX_RECEIPT_RETRIES, fetchReceiptAux, h1, h2,
            BASE_RECEIPT_BACKOFF_SECONDS]
    | err =>
      cases h3 : prov 3 with
      | ok o =>
        simp [fetchReceiptWithRetry, MAX_RECEIPT_RETRIES, fetchReceiptAux, h1, h2, h3,
              BASE_RECEIPT_BACKOFF_SECONDS]
      | err =>
        simp [fetchReceiptWithRetry, MAX_RECEIPT_RETRIES, fetchReceiptAux, h1, h2, h3,
              BASE_RECEIPT_BACKOFF_SECONDS]

/-- C5: a block fetch makes at most `MAX_BLOCK_FETCH_RETRIES` RPC calls,
its backoffs double starting from `BASE_BLOCK_FETCH_BACKOFF_SECONDS`,
and exhausting the attempts on transient errors yields FAIL; a receipt
fetch retries identically up to `MAX_RECEIPT_RETRIES` with backoffs
starting at `BASE_RECEIPT_BACKOFF_SECONDS`, so a receipt failing
transiently twice and then succeeding is obtained with exactly three RPC
calls, each backoff at least the base. -/
theorem bounded_retry_with_backoff (provB : Nat → RpcResult (Option EthersBlock))
    (provR : Nat → RpcResult (Option Receipt)) (ropt : Option Receipt) :
    (fetchBlockWithRetry provB).2.1 ≤ MAX_BLOCK_FETCH_RETRIES ∧
    (fetchBlockWithRetry provB).2.2 =
      (List.range ((fetchBlockWithRetry provB).2.1 - 1)).map
        (fun i => BASE_BLOCK_FETCH_BACKOFF_SECONDS * 2 ^ i) ∧
    ((∀ a, 1 ≤ a → a ≤ MAX_BLOCK_FETCH_RETRIES → provB a = .err) →
      (fetchBlockWithRetry provB).1 = .failed ∧
      (fetchBlockWithRetry provB).2.1 = MAX_BLOCK_FETCH_RETRIES) ∧
    (fetchReceiptWithRetry provR).2.1 ≤ MAX_RECEIPT_RETRIES ∧
    (provR 1 = .err → provR 2 = .err → provR 3 = .ok ropt →
      (fetchReceiptWithRetry provR).1 = some ropt ∧
      (fetchReceiptWithRetry provR).2.1 = 3 ∧
      (fetchReceiptWithRetry provR).2.2 =
        [BASE_RECEIPT_BACKOFF_SECONDS, 2 * BASE_RECEIPT_BACKOFF_SECONDS] ∧
      ∀ bo ∈ (fetchReceiptWithRetry provR).2.2, BASE_RECEIPT_BACKOFF_SECONDS ≤ bo) := by
  rw [fetchBlock_eval provB, fetchReceipt_eval provR]
  refine ⟨?_, ?_, ?_, ?_, ?_⟩
  · cases h1 : provB 1 with
    | ok o => cases o <;> simp [MAX_BLOCK_FETCH_RETRIES]
    | err =>
      cases h2 : provB 2 with
      | ok o => cases o <;> simp [MAX_BLOCK_FETCH_RETRIES]
      | err =>
        cases h3 : provB 3 with
        | ok o => cases o <;> simp [MAX_BLOCK_FETCH_RETRIES]
        | err => simp [MAX_BLOCK_FETCH_RETRIES]
  · cases h1 : provB 1 with
    | ok o => cases o <;> simp
    | err =>
      cases h2 : provB 2 with
      | ok o =>
        cases o <;> simp [List.range_succ, BASE_BLOCK_FETCH_BACKOFF_SECONDS]
      | err =>
        cases h3 : provB 3 with
        | ok o =>
          cases o <;> simp [List.range_succ, BASE_BLOCK_FETCH_BACKOFF_SECONDS]
        | err => simp [List.range_succ, BASE_BLOCK_FETCH_BACKOFF_SECONDS]
  · intro hall
    rw [hall 1 (by norm_num) (by norm_num [MAX_BLOCK_FETCH_RETRIES]),
        hall 2 (by norm_num) (by norm_num [MAX_BLOCK_FETCH_RETRIES]),
        hall 3 (by norm_num) (by norm_num [MAX_BLOCK_FETCH_RETRIES])]
    exact ⟨rfl, rfl⟩
  · cases h1 : provR 1 with
    | ok o => simp [MAX_RECEIPT_RETRIES]
    | err =>
      cases h2 : provR 2 with
      | ok o => simp [MAX_RECEIPT_RETRIES]
      | err =>
        cases h3 : provR 3 with
        | ok o => simp [MAX_RECEIPT_RETRIES]
        | err => simp [MAX_RECEIPT_RETRIES]
  · intro hr1 hr2 hr3
    rw [hr1, hr2, hr3]
    refine ⟨rfl, rfl, rfl, ?_⟩
    intro bo hbo
    rcases List.mem_cons.mp hbo with h | h
    · subst h; exact Nat.le_refl _
    · simp only [List.mem_singleton] at h
      subst h
      norm_num [BASE_RECEIPT_BACKOFF_SECONDS]

def c5BlockProv : Nat → RpcResult (Option EthersBlock) := fun _ => .err

def c5Receipt : Receipt := { status := some 1, logs := [] }

def c5ReceiptProv : Nat → RpcResult (Option Receipt) :=
  fun a => if a ≤ 2 then .err else .ok (some c5Receipt)

/-- C5 (witness): all-transient block fetch fails after exactly 3 calls
with backoffs [2, 4]; a receipt failing twice then succeeding is obtained
with exactly 3 calls and backoffs [1, 2]. -/
theorem bounded_retry_with_backoff_witness :
    (fetchBlockWithRetry c5BlockProv).2.1 ≤ MAX_BLOCK_FETCH_RETRIES ∧
    (fetchBlockWithRetry c5BlockProv).2.2 =
      (List.range ((fetchBlockWithRetry c5BlockProv).2.1 - 1)).map
        (fun i => BASE_BLOCK_FETCH_BACKOFF_SECONDS * 2 ^ i) ∧
    ((fetchBlockWithRetry c5BlockProv).1 = .failed ∧
      (fetchBlockWithRetry c5BlockProv).2.1 = MAX_BLOCK_FETCH_RETRIES) ∧
    (fetchReceiptWithRetry c5ReceiptProv).2.1 ≤ MAX_RECEIPT_RETRIES ∧
    ((fetchReceiptWithRetry c5ReceiptProv).1 = some (some c5Receipt) ∧
      (fetchReceiptWithRetry c5ReceiptProv).2.1 = 3 ∧
      (fetchReceiptWithRetry c5ReceiptProv).2.2 =
        [BASE_RECEIPT_BACKOFF_SECONDS, 2 * BASE_RECEIPT_BACKOFF_SECONDS] ∧
      ∀ bo ∈ (fetchReceiptWithRetry c5ReceiptProv).2.2, BASE_RECEIPT_BACKOFF_SECONDS ≤ bo) := by
  obtain ⟨a, b, c, d, e⟩ :=
    bounded_retry_with_backoff c5BlockProv c5ReceiptProv (some c5Receipt)
  exact ⟨a, b, c (fun a _ _ => rfl), d, e rfl rfl rfl⟩

/-! ## Structure of the PROCESS_BLOCK statement trace -/

def isInsertOp : DbOp → Prop
  | .insBlock _ => True
  | .insTx _ => True
  | .insLog _ => True
  | .setCkpt _ => False
  | .commitTx => False

theorem txsOps_insert_only (ora : BlockOracle) :
    ∀ ts idx, ∀ op ∈ (txsOps ora idx ts).2,
      (∃ t, op = .insTx t) ∨ (∃ l, op = .insLog l) := by
  intro ts
  induction ts with
  | nil => intro idx op hop; simp [txsOps] at hop
  | cons t rest ih =>
    intro idx op hop
    unfold txsOps at hop
    cases hr : (fetchReceiptWithRetry (ora.receiptResp idx)).1 with
    | none => rw [hr] at hop; simp at hop
    | some ropt =>
      rw [hr] at hop
      simp only [List.cons_append, List.mem_cons, List.mem_append] at hop
      rcases hop with hop | hop | hop
      · exact Or.inl ⟨_, hop⟩
      · cases ropt with
        | none => simp at hop
        | some rc =>
          simp only [List.mem_map] at hop
          obtain ⟨le, _, hle⟩ := hop
          exact Or.inr ⟨_, hle.symm⟩
      · exact ih (idx + 1) op hop

theorem txsOps_no_commit (ora : BlockOracle) (ts : List EthersTx) (idx : Nat) :
    DbOp.commitTx ∉ (txsOps ora idx ts).2 := by
  intro h
  rcases txsOps_insert_only ora ts idx _ h with ⟨t, ht⟩ | ⟨l, hl⟩
  · exact DbOp.noConfusion ht
  · exact DbOp.noConfusion hl

theorem runOpsAux_append_no_commit :
    ∀ (ws : List DbOp), DbOp.commitTx ∉ ws →
      ∀ d b rest, runOpsAux d b (ws ++ rest) = runOpsAux d (ws.foldl applyOp b) rest := by
  intro ws
  induction ws with
  | nil => intro _ d b rest; rfl
  | cons op rest ih =>
    intro h d b more
    have hop : op ≠ .commitTx := by
      intro he; exact h (he ▸ List.mem_cons_self op rest)
    have hrest : DbOp.commitTx ∉ rest := fun hm => h (List.mem_cons_of_mem _ hm)
    have step : runOpsAux d b ((op :: rest) ++ more) = runOpsAux d (applyOp b op) (rest ++ more) := by
      cases op with
      | commitTx => exact absurd rfl hop
      | insBlock b' => rfl
      | insTx t => rfl
      | insLog l => rfl
      | setCkpt m => rfl
    rw [step, ih hrest]
    rfl

theorem durableAfter_no_commit (ws : List DbOp) (h : DbOp.commitTx ∉ ws) (db : DbState) :
    durableAfter db ws = db := by
  unfold durableAfter
  conv_lhs => rw [show ws = ws ++ [] by simp]
  rw [runOpsAux_append_no_commit ws h]
  rfl

theorem durableAfter_commit_last (ws : List DbOp) (h : DbOp.commitTx ∉ ws) (db : DbState) :
    durableAfter db (ws ++ [.commitTx]) = ws.foldl applyOp db := by
  unfold durableAfter
  rw [runOpsAux_append_no_commit ws h]
  rfl

theorem processCore_skipped_shape (ora : BlockOracle) (n : Nat)
    (h : (processCore ora n).1 = .skipped) :
    (processCore ora n).2 = [.commitTx] := by
  unfold processCore at h ⊢
  cases hb : (fetchBlockWithRetry ora.blockResp).1 with
  | failed => rw [hb] at h; simp at h
  | missing => rfl
  | found b =>
    rw [hb] at h
    by_cases ht : (txsOps ora 0 b.transactions).1 <;> simp [ht] at h

theorem processCore_failed_no_commit (ora : BlockOracle) (n : Nat)
    (h : (processCore ora n).1 = .failed) :
    DbOp.commitTx ∉ (processCore ora n).2 := by
  unfold processCore at h ⊢
  cases hb : (fetchBlockWithRetry ora.blockResp).1 with
  | failed => simp
  | missing => rw [hb] at h; simp at h
  | found b =>
    rw [hb] at h
    by_cases ht : (txsOps ora 0 b.transactions).1
    · simp [ht] at h
    · intro hm
      simp only [if_neg ht] at hm
      rcases List.mem_cons.mp hm with hm | hm
      · exact DbOp.noConfusion hm
      · exact txsOps_no_commit ora b.transactions 0 hm

theorem processCore_committed_shape (ora : BlockOracle) (n : Nat)
    (h : (processCore ora n).1 = .committedFull) :
    ∃ b, (fetchBlockWithRetry ora.blockResp).1 = .found b ∧
      (txsOps ora 0 b.transactions).1 = true ∧
      (processCore ora n).2 =
        (DbOp.insBlock (mkMyBlock b) :: (txsOps ora 0 b.transactions).2 ++ [.setCkpt n])
          ++ [.commitTx] := by
  unfold processCore at h ⊢
  cases hb : (fetchBlockWithRetry ora.blockResp).1 with
  | failed => rw [hb] at h; simp at h
  | missing => rw [hb] at h; simp at h
  | found b =>
    rw [hb] at h
    by_cases ht : (txsOps ora 0 b.transactions).1
    · exact ⟨b, rfl, ht, by simp [ht]⟩
    · simp [ht] at h

/-- The write part of a committed trace contains no commit marker. -/
theorem committed_writes_no_commit (ora : BlockOracle) (n : Nat) (b : EthersBlock) :
    DbOp.commitTx ∉
      (DbOp.insBlock (mkMyBlock b) :: (txsOps ora 0 b.transactions).2 ++ [.setCkpt n]) := by
  intro hm
  rcases List.mem_cons.mp hm with hm | hm
  · exact DbOp.noConfusion hm
  rcases List.mem_append.mp hm with hm | hm
  · exact txsOps_no_commit ora b.transactions 0 hm
  · simp only [List.mem_singleton] at hm
    exact DbOp.noConfusion hm

/-! ## Row presence and monotonicity of the insert statements -/

/-- What it means for the row written by a statement to be present in a
store state. -/
def opKeyPresent (d : DbState) : DbOp → Prop
  | .insBlock b => ∃ r ∈ d.blocks, r.block_number = (blockRowOf b).block_number
  | .insTx t => ∃ r ∈ d.txs, r.tx_hash = (txRowOf t).tx_hash
  | .insLog l => ∃ p ∈ d.logs.rows, p.2 = logRowOf l
  | .setCkpt m => d.checkpoint = some m
  | .commitTx => True

theorem applyOp_blocks_mono {d : DbState} {r : BlockRow} (h : r ∈ d.blocks) (op : DbOp) :
    r ∈ (applyOp d op).blocks := by
  cases op with
  | insBlock b =>
    show r ∈ insertBlockRow d.blocks (blockRowOf b)
    unfold insertBlockRow
    split
    · exact h
    · exact List.mem_append_left _ h
  | insTx t => exact h
  | insLog l => exact h
  | setCkpt m => exact h
  | commitTx => exact h

theorem applyOp_txs_mono {d : DbState} {r : TxRow} (h : r ∈ d.txs) (op : DbOp) :
    r ∈ (applyOp d op).txs := by
  cases op with
  | insTx t =>
    show r ∈ insertTxRow d.txs (txRowOf t)
    unfold insertTxRow
    split
    · exact h
    · exact List.mem_append_left _ h
  | insBlock b => exact h
  | insLog l => exact h
  | setCkpt m => exact h
  | commitTx => exact h

theorem applyOp_logs_mono {d : DbState} {p : Nat × LogRow} (h : p ∈ d.logs.rows) (op : DbOp) :
    p ∈ (applyOp d op).logs.rows := by
  cases op with
  | insLog l =>
    show p ∈ (insertLogRow d.logs (logRowOf l)).rows
    unfold insertLogRow
    split
    · exact h
    · exact List.mem_append_left _ h
  | insBlock b => exact h
  | insTx t => exact h
  | setCkpt m => exact h
  | commitTx => exact h

theorem logsWf_applyOp {d : DbState} (hwf : LogsWf d.logs) (op : DbOp) :
    LogsWf (applyOp d op).logs := by
  cases op with
  | insLog l => exact logsWf_insert _ hwf
  | insBlock b => exact hwf
  | insTx t => exact hwf
  | setCkpt m => exact hwf
  | commitTx => exact hwf

theorem logsWf_foldl {ops : List DbOp} :
    ∀ {d : DbState}, LogsWf d.logs → LogsWf (ops.foldl applyOp d).logs := by
  induction ops with
  | nil => intro d h; exact h
  | cons op rest ih => intro d h; exact ih (logsWf_applyOp h op)

theorem insert_present_mono {d : DbState} {op : DbOp} (hins : isInsertOp op)
    (h : opKeyPresent d op) (op' : DbOp) : opKeyPresent (applyOp d op') op := by
  cases op with
  | insBlock b =>
    obtain ⟨r, hr, hk⟩ := h
    exact ⟨r, applyOp_blocks_mono hr op', hk⟩
  | insTx t =>
    obtain ⟨r, hr, hk⟩ := h
    exact ⟨r, applyOp_txs_mono hr op', hk⟩
  | insLog l =>
    obtain ⟨p, hp, hk⟩ := h
    exact ⟨p, applyOp_logs_mono hp op', hk⟩
  | setCkpt m => exact absurd hins not_false
  | commitTx => exact absurd hins not_false

theorem insert_present_foldl {op : DbOp} (hins : isInsertOp op) :
    ∀ (ops : List DbOp) {d : DbState}, opKeyPresent d op →
      opKeyPresent (ops.foldl applyOp d) op := by
  intro ops
  induction ops with
  | nil => intro d h; exact h
  | cons op' rest ih =>
    intro d h
    exact ih (insert_present_mono hins h op')

theorem self_present_insBlock (d : DbState) (b : MyBlock) :
    opKeyPresent (applyOp d (.insBlock b)) (.insBlock b) := by
  show ∃ r ∈ insertBlockRow d.blocks (blockRowOf b), _
  unfold insertBlockRow
  split
  · next h =>
    obtain ⟨r, hr, hk⟩ := List.any_eq_true.mp h
    exact ⟨r, hr, by simpa using hk⟩
  · exact ⟨blockRowOf b, List.mem_append_right _ (List.mem_singleton_self _), rfl⟩

theorem self_present_insTx (d : DbState) (t : MyTransaction) :
    opKeyPresent (applyOp d (.insTx t)) (.insTx t) := by
  show ∃ r ∈ insertTxRow d.txs (txRowOf t), _
  unfold insertTxRow
  split
  · next h =>
    obtain ⟨r, hr, hk⟩ := List.any_eq_true.mp h
    exact ⟨r, hr, by simpa using hk⟩
  · exact ⟨txRowOf t, List.mem_append_right _ (List.mem_singleton_self _), rfl⟩

theorem self_present_insLog {d : DbState} (hwf : LogsWf d.logs) (l : MyLog) :
    opKeyPresent (applyOp d (.insLog l)) (.insLog l) := by
  show ∃ p ∈ (insertLogRow d.logs (logRowOf l)).rows, _
  rw [insertLogRow_append _ hwf]
  exact ⟨(d.logs.nextId, logRowOf l),
    List.mem_append_right _ (List.mem_singleton_self _), rfl⟩

/-- After folding a list of pure insert statements over a well-formed
state, every one of their rows is present. -/
theorem foldl_all_present :
    ∀ (ops : List DbOp) {d : DbState}, LogsWf d.logs →
      (∀ op ∈ ops, isInsertOp op) →
      ∀ op ∈ ops, opKeyPresent (ops.foldl applyOp d) op := by
  intro ops
  induction ops with
  | nil => intro d _ _ op hop; simp at hop
  | cons op0 rest ih =>
    intro d hwf hall op hop
    have h0 : isInsertOp op0 := hall op0 (List.mem_cons_self _ _)
    rcases List.mem_cons.mp hop with hop | hop
    · subst hop
      have hself : opKeyPresent (applyOp d op) op := by
        cases op with
        | insBlock b => exact self_present_insBlock d b
        | insTx t => exact self_present_insTx d t
        | insLog l => exact self_present_insLog hwf l
        | setCkpt m => exact absurd h0 not_false
        | commitTx => exact absurd h0 not_false
      exact insert_present_foldl h0 rest hself
    · exact ih (logsWf_applyOp hwf op0) (fun o ho => hall o (List.mem_cons_of_mem _ ho)) op hop

/-! ## Atomicity of PROCESS_BLOCK (claim C1) -/

/-- No row of block height `n` is visible in the store. -/
def NoRowsOf (d : DbState) (n : Nat) : Prop :=
  (∀ r ∈ d.blocks, r.block_number ≠ n) ∧
  (∀ r ∈ d.txs, r.block_number ≠ n) ∧
  (∀ p ∈ d.logs.rows, p.2.block_number ≠ n)

theorem committed_final_state (ora : BlockOracle) (n : Nat) (db : DbState)
    (b : EthersBlock) (hwf : LogsWf db.logs)
    (hops : (processCore ora n).2 =
      (DbOp.insBlock (mkMyBlock b) :: (txsOps ora 0 b.transactions).2 ++ [DbOp.setCkpt n])
        ++ [DbOp.commitTx]) :
    (processBlock ora n db).2 =
      ((DbOp.insBlock (mkMyBlock b) :: (txsOps ora 0 b.transactions).2 ++ [DbOp.setCkpt n]).foldl
        applyOp db) ∧
    (processBlock ora n db).2.checkpoint = some n ∧
    ∀ op ∈ (processCore ora n).2, opKeyPresent (processBlock ora n db).2 op := by
  have hnc := committed_writes_no_commit ora n b
  have hfinal : (processBlock ora n db).2 =
      (DbOp.insBlock (mkMyBlock b) :: (txsOps ora 0 b.transactions).2 ++ [DbOp.setCkpt n]).foldl
        applyOp db := by
    show durableAfter db (processCore ora n).2 = _
    rw [hops]
    exact durableAfter_commit_last _ hnc db
  have hallIns : ∀ op ∈ DbOp.insBlock (mkMyBlock b) :: (txsOps ora 0 b.transactions).2,
      isInsertOp op := by
    intro op hop
    rcases List.mem_cons.mp hop with hop | hop
    · subst hop; trivial
    · rcases txsOps_insert_only ora b.transactions 0 op hop with ⟨t, ht⟩ | ⟨l, hl⟩
      · subst ht; trivial
      · subst hl; trivial
  have hsplit : (DbOp.insBlock (mkMyBlock b) :: (txsOps ora 0 b.transactions).2
        ++ [DbOp.setCkpt n]).foldl applyOp db =
      applyOp ((DbOp.insBlock (mkMyBlock b) :: (txsOps ora 0 b.transactions).2).foldl
        applyOp db) (.setCkpt n) := by
    rw [show DbOp.insBlock (mkMyBlock b) :: (txsOps ora 0 b.transactions).2 ++ [DbOp.setCkpt n]
          = (DbOp.insBlock (mkMyBlock b) :: (txsOps ora 0 b.transactions).2) ++ [DbOp.setCkpt n]
        from rfl,
        List.foldl_append]
    rfl
  have hck : (processBlock ora n db).2.checkpoint = some n := by
    rw [hfinal, hsplit]; rfl
  refine ⟨hfinal, hck, ?_⟩
  intro op hop
  rw [hops] at hop
  rcases List.mem_append.mp hop with hop | hop
  · rcases List.mem_cons.mp hop with hop | hop
    · -- the insBlock statement
      subst hop
      rw [hfinal, hsplit]
      exact insert_present_mono (hallIns _ (List.mem_cons_self _ _))
        (foldl_all_present _ hwf hallIns _ (List.mem_cons_self _ _)) _
    · rcases List.mem_append.mp hop with hop | hop
      · -- an insert from the transactions
        have hins := hallIns op (List.mem_cons_of_mem _ hop)
        rw [hfinal, hsplit]
        exact insert_present_mono hins
          (foldl_all_present _ hwf hallIns _ (List.mem_cons_of_mem _ hop)) _
      · -- the setCkpt statement
        simp only [List.mem_singleton] at hop
        subst hop
        exact hck
  · -- the commit marker
    simp only [List.mem_singleton] at hop
    subst hop
    trivial

/-- C1: every row of block `n` — the block row, its transaction rows, its
log rows — and the checkpoint update to `n` are issued inside one database
transaction whose single commit is the last statement; after executing any
prefix of the trace (i.e. after a failure or crash anywhere in
PROCESS_BLOCK(n)), the durable store either is exactly the pre-state (no
rows of `n`, checkpoint still `n-1`) or holds all rows of block `n` with
checkpoint `n`. -/
theorem process_block_all_or_nothing (ora : BlockOracle) (n : Nat) (db : DbState)
    (hwf : LogsWf db.logs) (hck : db.checkpoint = some (n - 1))
    (hnone : NoRowsOf db n) :
    ∀ k : Nat,
      (durableAfter db ((processCore ora n).2.take k) = db ∧
        (durableAfter db ((processCore ora n).2.take k)).checkpoint = some (n - 1) ∧
        NoRowsOf (durableAfter db ((processCore ora n).2.take k)) n) ∨
      ((processCore ora n).1 = .committedFull ∧
        durableAfter db ((processCore ora n).2.take k) = (processBlock ora n db).2 ∧
        (processBlock ora n db).2.checkpoint = some n ∧
        ∀ op ∈ (processCore ora n).2, opKeyPresent (processBlock ora n db).2 op) := by
  intro k
  cases ho : (processCore ora n).1 with
  | failed =>
    left
    have hnc := processCore_failed_no_commit ora n ho
    have hnc' : DbOp.commitTx ∉ (processCore ora n).2.take k :=
      fun hm => hnc (List.take_subset _ _ hm)
    have hd := durableAfter_no_commit _ hnc' db
    exact ⟨hd, by rw [hd, hck], by rw [hd]; exact hnone⟩
  | skipped =>
    left
    have hsh := processCore_skipped_shape ora n ho
    rw [hsh]
    have hd : durableAfter db ([DbOp.commitTx].take k) = db := by
      cases k with
      | zero => rfl
      | succ k =>
        rw [List.take_succ_cons, List.take_nil]
        rfl
    exact ⟨hd, by rw [hd, hck], by rw [hd]; exact hnone⟩
  | committedFull =>
    obtain ⟨b, hfb, hta, hops⟩ := processCore_committed_shape ora n ho
    obtain ⟨hfinal, hckn, hpres⟩ := committed_final_state ora n db b hwf hops
    rcases le_or_lt k (DbOp.insBlock (mkMyBlock b) :: (txsOps ora 0 b.transactions).2
        ++ [DbOp.setCkpt n]).length with hk | hk
    · left
      have htake : (processCore ora n).2.take k =
          (DbOp.insBlock (mkMyBlock b) :: (txsOps ora 0 b.transactions).2
            ++ [DbOp.setCkpt n]).take k := by
        rw [hops]
        exact List.take_append_of_le_length hk
      have hnc' : DbOp.commitTx ∉ (processCore ora n).2.take k := by
        rw [htake]
        intro hm
        exact committed_writes_no_commit ora n b (List.take_subset _ _ hm)
      have hd := durableAfter_no_commit _ hnc' db
      exact ⟨hd, by rw [hd, hck], by rw [hd]; exact hnone⟩
    · right
      have htake : (processCore ora n).2.take k = (processCore ora n).2 := by
        apply List.take_of_length_le
        rw [hops]
        simp only [List.length_cons, List.length_append, List.length_singleton,
          List.length_nil] at hk ⊢
        omega
      rw [htake]
      exact ⟨rfl, rfl, hckn, hpres⟩

def c1LogEntry : EthersLogEntry :=
  { logIndex := some 0, transactionHash := some 11, transactionIndex := some 0,
    blockNumber := some 5, blockHash := some 21, address := 31, payload := "0x",
    topics := [7] }

def c1Receipt : Receipt := { status := some 1, logs := [c1LogEntry] }

def c1EthTx : EthersTx :=
  { hash := 11, blockNumber := some 5, blockHash := some 21,
    transactionIndex := some 0, fromAddr := 41, toAddr := some 42, value := 1,
    gasPrice := some 2, maxFeePerGas := none, maxPriorityFeePerGas := none,
    gas := 21000, input := "0x" }

def c1Block : EthersBlock :=
  { number := some 5, hash := some 21, parentHash := 20, timestamp := 1000,
    gasUsed := 5, gasLimit := 10, baseFeePerGas := some 3,
    transactions := [c1EthTx] }

def c1Oracle : BlockOracle :=
  { blockResp := fun _ => .ok (some c1Block),
    receiptResp := fun _ _ => .ok (some c1Receipt) }

def c1Db : DbState :=
  { blocks := [], txs := [], logs := emptyLogs, checkpoint := some 4 }

/-- C1 (witness): the atomicity disjunction at a concrete block with one
transaction and one log, starting from checkpoint 4, after any crash
point (here the full trace). -/
theorem process_block_all_or_nothing_witness :
    (durableAfter c1Db ((processCore c1Oracle 5).2.take 100) = c1Db ∧
      (durableAfter c1Db ((processCore c1Oracle 5).2.take 100)).checkpoint = some (5 - 1) ∧
      NoRowsOf (durableAfter c1Db ((processCore c1Oracle 5).2.take 100)) 5) ∨
    ((processCore c1Oracle 5).1 = .committedFull ∧
      durableAfter c1Db ((processCore c1Oracle 5).2.take 100) = (processBlock c1Oracle 5 c1Db).2 ∧
      (processBlock c1Oracle 5 c1Db).2.checkpoint = some 5 ∧
      ∀ op ∈ (processCore c1Oracle 5).2, opKeyPresent (processBlock c1Oracle 5 c1Db).2 op) :=
  process_block_all_or_nothing c1Oracle 5 c1Db
    (by intro p hp; simp [c1Db, emptyLogs] at hp)
    rfl
    (by refine ⟨?_, ?_, ?_⟩ <;> intro r hr <;> simp [c1Db, emptyLogs] at hr)
    100

/-! ## Durable-state behaviour of the three PROCESS_BLOCK outcomes -/

theorem processBlock_failed_state (ora : BlockOracle) (n : Nat) (db : DbState)
    (h : (processCore ora n).1 = .failed) : (processBlock ora n db).2 = db := by
  show durableAfter db (processCore ora n).2 = db
  exact durableAfter_no_commit _ (processCore_failed_no_commit ora n h) db

theorem processBlock_skipped_state (ora : BlockOracle) (n : Nat) (db : DbState)
    (h : (processCore ora n).1 = .skipped) : (processBlock ora n db).2 = db := by
  show durableAfter db (processCore ora n).2 = db
  rw [processCore_skipped_shape ora n h]
  rfl

theorem processBlock_committed_ckpt (ora : BlockOracle) (n : Nat) (db : DbState)
    (h : (processCore ora n).1 = .committedFull) :
    (processBlock ora n db).2.checkpoint = some n := by
  obtain ⟨b, _, _, hops⟩ := processCore_committed_shape ora n h
  have hnc := committed_writes_no_commit ora n b
  show (durableAfter db (processCore ora n).2).checkpoint = some n
  rw [hops, durableAfter_commit_last _ hnc db,
      show DbOp.insBlock (mkMyBlock b) :: (txsOps ora 0 b.transactions).2 ++ [DbOp.setCkpt n]
        = (DbOp.insBlock (mkMyBlock b) :: (txsOps ora 0 b.transactions).2) ++ [DbOp.setCkpt n]
      from rfl,
      List.foldl_append]
  rfl

/-- Convenience: a membership form of `getLast?`. -/
theorem getLast?_mem_self {l : List Nat} {a : Nat} (h : l.getLast? = some a) : a ∈ l := by
  induction l with
  | nil => simp at h
  | cons x t ih =>
    cases t with
    | nil =>
      rw [List.getLast?_singleton] at h
      simp only [Option.some.injEq] at h
      subst h
      exact List.mem_singleton_self _
    | cons y t2 =>
      rw [List.getLast?_cons_cons] at h
      exact List.mem_cons_of_mem _ (ih h)

/-! ## The batch loop (claims C3, C4, C6) -/

theorem runBatch_attempted_ok (ora : Nat → BlockOracle) :
    ∀ (hs : List Nat) (db : DbState),
      (∀ n ∈ hs, (processCore (ora n) n).1 ≠ .failed) →
      (runBatch ora hs db).2.1 = hs := by
  intro hs
  induction hs with
  | nil => intro db _; rfl
  | cons n rest ih =>
    intro db hok
    unfold runBatch
    cases ho : (processBlock (ora n) n db).1 with
    | failed => exact absurd ho (hok n (List.mem_cons_self _ _))
    | skipped => simp [ho, ih _ (fun m hm => hok m (List.mem_cons_of_mem _ hm))]
    | committedFull => simp [ho, ih _ (fun m hm => hok m (List.mem_cons_of_mem _ hm))]

theorem runBatch_attempted_take (ora : Nat → BlockOracle) :
    ∀ (hs : List Nat) (db : DbState), ∃ j, (runBatch ora hs db).2.1 = hs.take j := by
  intro hs
  induction hs with
  | nil => intro db; exact ⟨0, rfl⟩
  | cons n rest ih =>
    intro db
    unfold runBatch
    cases ho : (processBlock (ora n) n db).1 with
    | failed => exact ⟨1, by simp [ho]⟩
    | skipped =>
      obtain ⟨j, hj⟩ := ih (processBlock (ora n) n db).2
      exact ⟨j + 1, by simp [ho, hj]⟩
    | committedFull =>
      obtain ⟨j, hj⟩ := ih (processBlock (ora n) n db).2
      exact ⟨j + 1, by simp [ho, hj]⟩

theorem runBatch_no_writes_state (ora : Nat → BlockOracle) :
    ∀ (hs : List Nat) (db : DbState),
      (runBatch ora hs db).2.2 = [] → (runBatch ora hs db).1 = db := by
  intro hs
  induction hs with
  | nil => intro db _; rfl
  | cons n rest ih =>
    intro db hw
    unfold runBatch at hw ⊢
    cases ho : (processBlock (ora n) n db).1 with
    | failed =>
      simp only [ho]
      exact processBlock_failed_state (ora n) n db ho
    | skipped =>
      simp only [ho] at hw ⊢
      rw [ih _ hw, processBlock_skipped_state (ora n) n db ho]
    | committedFull =>
      simp only [ho] at hw
      simp at hw

/-- Checkpoint behaviour of one batch: writes are strictly increasing,
drawn from the attempted heights, above the starting checkpoint, the final
checkpoint is the last write (or unchanged), and the final checkpoint
dominates every write of the batch. -/
theorem runBatch_spec (ora : Nat → BlockOracle) :
    ∀ (hs : List Nat) (db : DbState),
      (∀ h ∈ hs, ∀ c, db.checkpoint = some c → c < h) →
      List.Pairwise (· < ·) hs →
      List.Pairwise (· < ·) (runBatch ora hs db).2.2 ∧
      (∀ w ∈ (runBatch ora hs db).2.2, w ∈ hs) ∧
      (∀ w ∈ (runBatch ora hs db).2.2, ∀ c, db.checkpoint = some c → c < w) ∧
      ((runBatch ora hs db).1.checkpoint =
        ((runBatch ora hs db).2.2.getLast?).elim db.checkpoint some) ∧
      (∀ w ∈ (runBatch ora hs db).2.2, ∀ c,
        (runBatch ora hs db).1.checkpoint = some c → w ≤ c) := by
  intro hs
  induction hs with
  | nil =>
    intro db _ _
    exact ⟨List.Pairwise.nil, by simp [runBatch], by simp [runBatch],
      rfl, by simp [runBatch]⟩
  | cons n rest ih =>
    intro db hlow hpw
    have hpwrest : List.Pairwise (· < ·) rest := hpw.of_cons
    have hnlt : ∀ h ∈ rest, n < h := fun h hm => List.rel_of_pairwise_cons hpw hm
    unfold runBatch
    cases ho : (processBlock (ora n) n db).1 with
    | failed =>
      have hst := processBlock_failed_state (ora n) n db ho
      simp only [ho, hst]
      exact ⟨List.Pairwise.nil, by simp, by simp, by simp, by simp⟩
    | skipped =>
      have hst := processBlock_skipped_state (ora n) n db ho
      simp only [ho, hst]
      have hres := ih db (fun h hm => hlow h (List.mem_cons_of_mem _ hm)) hpwrest
      obtain ⟨a, b, c, d, e⟩ := hres
      exact ⟨a, fun w hw => List.mem_cons_of_mem _ (b w hw), c, d, e⟩
    | committedFull =>
      have hckn := processBlock_committed_ckpt (ora n) n db ho
      set db' := (processBlock (ora n) n db).2 with hdb'
      have hres := ih db' (fun h hm c hc => by
        rw [hckn] at hc
        injection hc with hc
        exact hc ▸ hnlt h hm) hpwrest
      obtain ⟨a, b, c, d, e⟩ := hres
      simp only [ho]
      have hlown : ∀ w ∈ (runBatch ora rest db').2.2, n < w := fun w hw => c w hw n hckn
      refine ⟨?_, ?_, ?_, ?_, ?_⟩
      · exact List.Pairwise.cons hlown a
      · intro w hw
        rcases List.mem_cons.mp hw with hw | hw
        · exact hw ▸ List.mem_cons_self _ _
        · exact List.mem_cons_of_mem _ (b w hw)
      · intro w hw c0 hc0
        rcases List.mem_cons.mp hw with hw | hw
        · exact hw ▸ hlow n (List.mem_cons_self _ _) c0 hc0
        · exact Nat.lt_trans (hlow n (List.mem_cons_self _ _) c0 hc0) (hlown w hw)
      · cases hws : (runBatch ora rest db').2.2 with
        | nil =>
          rw [hws] at d
          simp only [List.getLast?_nil, Option.elim] at d
          rw [d, hckn, List.getLast?_singleton]
          rfl
        | cons w0 ws0 =>
          have hlex : ∃ l, (w0 :: ws0).getLast? = some l := by
            cases hlx : (w0 :: ws0).getLast? with
            | none => simp at hlx
            | some l => exact ⟨l, rfl⟩
          obtain ⟨l, hl⟩ := hlex
          rw [hws] at d
          rw [show (runBatch ora rest (processBlock (ora n) n db).2).1.checkpoint
                = (runBatch ora rest db').1.checkpoint from rfl,
              List.getLast?_cons_cons, d, hl]
          rfl
      · intro w hw c0 hc0
        cases hws : (runBatch ora rest db').2.2 with
        | nil =>
          rw [hws] at d
          simp only [List.getLast?_nil, Option.elim] at d
          rw [d, hckn] at hc0
          injection hc0 with hc0
          rw [hws] at hw
          rcases List.mem_cons.mp hw with hw | hw
          · exact Nat.le_of_eq (hw.trans hc0)
          · simp at hw
        | cons w0 ws0 =>
          rcases List.mem_cons.mp hw with hw | hw
          · subst hw
            have hlst : ∃ l, (runBatch ora rest db').2.2.getLast? = some l := by
              rw [hws]
              cases hl : (w0 :: ws0).getLast? with
              | none => simp at hl
              | some l => exact ⟨l, rfl⟩
            obtain ⟨l, hl⟩ := hlst
            have hcl : (runBatch ora rest db').1.checkpoint = some l := by
              rw [d, hl]
              rfl
            rw [hcl] at hc0
            injection hc0 with hc0
            subst hc0
            exact Nat.le_of_lt (hlown l (getLast?_mem_self hl))
          · exact e w hw c0 hc0

/-! ## The polling cycle (claims C3, C4, C6) -/

/-- The height range a cycle targets when it is not caught up. -/
def batchRange (ckpt : Option Nat) (head : Nat) : List Nat :=
  List.range' (cycleStart ckpt)
    (min (cycleStart ckpt + BLOCKS_PER_BATCH - 1) head + 1 - cycleStart ckpt)

theorem runCycle_read_failed (co : CycleOracle) (db : DbState)
    (h : co.ckptReadOk = false) : runCycle co db = (db, [], []) := by
  unfold runCycle
  simp [h]

theorem runCycle_head_failed (co : CycleOracle) (db : DbState)
    (hok : co.ckptReadOk = true) (h : co.head = none) :
    runCycle co db = (db, [], []) := by
  unfold runCycle
  simp [hok, h]

theorem runCycle_caught_up (co : CycleOracle) (db : DbState) (head : Nat)
    (hok : co.ckptReadOk = true) (hhead : co.head = some head)
    (hgt : head < cycleStart (get_last_synced_block db)) :
    runCycle co db = (db, [], []) := by
  unfold runCycle
  simp [hok, hhead, hgt]

theorem runCycle_active (co : CycleOracle) (db : DbState) (head : Nat)
    (hok : co.ckptReadOk = true) (hhead : co.head = some head)
    (hle : cycleStart (get_last_synced_block db) ≤ head) :
    runCycle co db = runBatch co.perBlock (batchRange (get_last_synced_block db) head) db := by
  have h1 : ¬ (cycleStart (get_last_synced_block db) > head) := Nat.not_lt.mpr hle
  have h2 : ¬ (cycleStart (get_last_synced_block db) >
      min (cycleStart (get_last_synced_block db) + BLOCKS_PER_BATCH - 1) head) := by
    apply Nat.not_lt.mpr
    apply Nat.le_min.mpr
    refine ⟨?_, hle⟩
    simp only [BLOCKS_PER_BATCH]
    omega
  unfold runCycle batchRange
  simp [hok, hhead, h1, h2]

theorem batchRange_pairwise (ckpt : Option Nat) (head : Nat) :
    List.Pairwise (· < ·) (batchRange ckpt head) :=
  List.pairwise_lt_range' _ _

theorem batchRange_lower (ckpt : Option Nat) (head : Nat) :
    ∀ h ∈ batchRange ckpt head, ∀ c, ckpt = some c → c < h := by
  intro h hm c hc
  have := (List.mem_range'_1.mp hm).1
  subst hc
  simp only [cycleStart] at this
  omega

/-- Checkpoint behaviour of one full cycle, in the same terms as
`runBatch_spec`; the no-op branches commit nothing. -/
theorem runCycle_spec (co : CycleOracle) (db : DbState) :
    List.Pairwise (· < ·) (runCycle co db).2.2 ∧
    (∀ w ∈ (runCycle co db).2.2, ∀ c, db.checkpoint = some c → c < w) ∧
    ((runCycle co db).1.checkpoint =
      ((runCycle co db).2.2.getLast?).elim db.checkpoint some) ∧
    (∀ w ∈ (runCycle co db).2.2, ∀ c,
      (runCycle co db).1.checkpoint = some c → w ≤ c) := by
  by_cases hok : co.ckptReadOk = false
  · rw [runCycle_read_failed co db hok]
    exact ⟨List.Pairwise.nil, by simp, rfl, by simp⟩
  · have hok' : co.ckptReadOk = true := by
      cases h : co.ckptReadOk
      · exact absurd h hok
      · rfl
    cases hh : co.head with
    | none =>
      rw [runCycle_head_failed co db hok' hh]
      exact ⟨List.Pairwise.nil, by simp, rfl, by simp⟩
    | some head =>
      rcases Nat.lt_or_ge head (cycleStart (get_last_synced_block db)) with hgt | hle
      · rw [runCycle_caught_up co db head hok' hh hgt]
        exact ⟨List.Pairwise.nil, by simp, rfl, by simp⟩
      · rw [runCycle_active co db head hok' hh hle]
        obtain ⟨a, b, c, d, e⟩ := runBatch_spec co.perBlock
          (batchRange (get_last_synced_block db) head) db
          (batchRange_lower (get_last_synced_block db) head)
          (batchRange_pairwise (get_last_synced_block db) head)
        exact ⟨a, c, d, e⟩

/-- Checkpoint behaviour of a whole run: per-cycle writes ascend and exceed
the checkpoint read at cycle start; the concatenated write sequence is
strictly increasing; the final checkpoint is the last write overall. -/
theorem runCycles_spec :
    ∀ (cos : List CycleOracle) (db : DbState),
      (∀ p ∈ (runCycles cos db).2,
        List.Pairwise (· < ·) p.2 ∧ ∀ w ∈ p.2, ∀ c, p.1 = some c → c < w) ∧
      List.Pairwise (· < ·) (((runCycles cos db).2.map Prod.snd).flatten) ∧
      (∀ w ∈ ((runCycles cos db).2.map Prod.snd).flatten, ∀ c,
        db.checkpoint = some c → c < w) ∧
      ((runCycles cos db).1.checkpoint =
        ((((runCycles cos db).2.map Prod.snd).flatten).getLast?).elim db.checkpoint some) ∧
      (∀ w ∈ ((runCycles cos db).2.map Prod.snd).flatten, ∀ c,
        (runCycles cos db).1.checkpoint = some c → w ≤ c) := by
  intro cos
  induction cos with
  | nil =>
    intro db
    exact ⟨by simp [runCycles], List.Pairwise.nil, by simp [runCycles],
      rfl, by simp [runCycles]⟩
  | cons co rest ih =>
    intro db
    obtain ⟨cpw, clow, cchar, cdom⟩ := runCycle_spec co db
    obtain ⟨ra, rb, rc, rd, re⟩ := ih (runCycle co db).1
    have hres : runCycles (co :: rest) db =
        ((runCycles rest (runCycle co db).1).1,
          (get_last_synced_block db, (runCycle co db).2.2) ::
            (runCycles rest (runCycle co db).1).2) := rfl
    rw [hres]
    simp only [List.map_cons, List.flatten_cons]
    have hcross : ∀ a ∈ (runCycle co db).2.2,
        ∀ b ∈ ((runCycles rest (runCycle co db).1).2.map Prod.snd).flatten, a < b := by
      intro a ha b hb
      cases hws : (runCycle co db).2.2 with
      | nil => rw [hws] at ha; simp at ha
      | cons w0 ws0 =>
        have hlex : ∃ l, (w0 :: ws0).getLast? = some l := by
          cases hlx : (w0 :: ws0).getLast? with
          | none => simp at hlx
          | some l => exact ⟨l, rfl⟩
        obtain ⟨l, hl⟩ := hlex
        have hckl : (runCycle co db).1.checkpoint = some l := by
          rw [cchar, hws, hl]
          rfl
        have halel : a ≤ l := cdom a ha l hckl
        have hblt : l < b := rc b hb l hckl
        exact Nat.lt_of_le_of_lt halel hblt
    refine ⟨?_, ?_, ?_, ?_, ?_⟩
    · intro p hp
      rcases List.mem_cons.mp hp with hp | hp
      · subst hp
        exact ⟨cpw, fun w hw c hc => clow w hw c hc⟩
      · exact ra p hp
    · rw [List.pairwise_append]
      exact ⟨cpw, rb, hcross⟩
    · intro w hw c hc
      rcases List.mem_append.mp hw with hw | hw
      · exact clow w hw c hc
      · cases hws : (runCycle co db).2.2 with
        | nil =>
          have hck1 : (runCycle co db).1.checkpoint = some c := by
            rw [cchar, hws]
            simpa using hc
          exact rc w hw c hck1
        | cons w0 ws0 =>
          have hlex : ∃ l, (w0 :: ws0).getLast? = some l := by
            cases hlx : (w0 :: ws0).getLast? with
            | none => simp at hlx
            | some l => exact ⟨l, rfl⟩
          obtain ⟨l, hl⟩ := hlex
          have hckl : (runCycle co db).1.checkpoint = some l := by
            rw [cchar, hws, hl]
            rfl
          have hcl : c < l := clow l (hws ▸ getLast?_mem_self hl) c hc
          exact Nat.lt_trans hcl (rc w hw l hckl)
    · cases hfr : ((runCycles rest (runCycle co db).1).2.map Prod.snd).flatten with
      | nil =>
        rw [hfr] at rd
        simp only [List.getLast?_nil, Option.elim] at rd
        rw [rd, cchar, List.append_nil]
      | cons f0 fr0 =>
        have hlex : ∃ l, (f0 :: fr0).getLast? = some l := by
          cases hlx : (f0 :: fr0).getLast? with
          | none => simp at hlx
          | some l => exact ⟨l, rfl⟩
        obtain ⟨l, hl⟩ := hlex
        rw [hfr] at rd
        rw [rd, hl, List.getLast?_append_of_ne_nil _ (List.cons_ne_nil f0 fr0), hl]
        rfl
    · intro w hw c hc
      rcases List.mem_append.mp hw with hw | hw
      · cases hfr : ((runCycles rest (runCycle co db).1).2.map Prod.snd).flatten with
        | nil =>
          rw [hfr] at rd
          simp only [List.getLast?_nil, Option.elim] at rd
          rw [rd] at hc
          exact cdom w hw c hc
        | cons f0 fr0 =>
          have hlex : ∃ l, (f0 :: fr0).getLast? = some l := by
            cases hlx : (f0 :: fr0).getLast? with
            | none => simp at hlx
            | some l => exact ⟨l, rfl⟩
          obtain ⟨l, hl⟩ := hlex
          rw [hfr] at rd
          rw [rd, hl] at hc
          simp only [Option.elim, Option.some.injEq] at hc
          subst hc
          exact Nat.le_of_lt (hcross w hw l (hfr ▸ getLast?_mem_self hl))
      · exact re w hw c hc

/-! ## Concrete cycle fixtures -/

def mkSimpleBlock (n : Nat) : EthersBlock :=
  { number := some n, hash := some n, parentHash := 0, timestamp := 0,
    gasUsed := 0, gasLimit := 0, baseFeePerGas := none, transactions := [] }

/-- Provider that finds every block (with no transactions) first try. -/
def happyOracle : Nat → BlockOracle := fun n =>
  { blockResp := fun _ => .ok (some (mkSimpleBlock n)),
    receiptResp := fun _ _ => .err }

/-- Provider that reports height `m` as MISSING and finds every other
block. -/
def skipOracle (m : Nat) : Nat → BlockOracle := fun n =>
  if n = m then
    { blockResp := fun _ => .ok none, receiptResp := fun _ _ => .err }
  else happyOracle n

def db99 : DbState :=
  { blocks := [], txs := [], logs := emptyLogs, checkpoint := some 99 }

def cycleA : CycleOracle :=
  { ckptReadOk := true, head := some 101, perBlock := skipOracle 100 }

def cycleB : CycleOracle :=
  { ckptReadOk := true, head := some 200, perBlock := skipOracle 100 }

/-! ## Claim C4: monotone checkpoint -/

/-- C4: over any run, the concatenation of the committed checkpoint values
is non-decreasing; within each cycle the writes strictly ascend and each
exceeds the checkpoint read at that cycle's start. -/
theorem checkpoint_monotone (cos : List CycleOracle) (db : DbState) :
    List.Pairwise (· ≤ ·) (((runCycles cos db).2.map Prod.snd).flatten) ∧
    ∀ p ∈ (runCycles cos db).2,
      (∀ w ∈ p.2, ∀ c, p.1 = some c → c < w) ∧ List.Pairwise (· < ·) p.2 := by
  obtain ⟨a, b, _, _, _⟩ := runCycles_spec cos db
  exact ⟨b.imp Nat.le_of_lt, fun p hp => ⟨(a p hp).2, (a p hp).1⟩⟩

/-- C4 (witness): a concrete two-cycle run. -/
theorem checkpoint_monotone_witness :
    List.Pairwise (· ≤ ·) (((runCycles [cycleA, cycleB] db99).2.map Prod.snd).flatten) :=
  (checkpoint_monotone [cycleA, cycleB] db99).1

/-! ## Claim C6: range computation and iteration order -/

/-- C6: each cycle starts at checkpoint + 1 (or the project default when no
checkpoint exists); when start > head the cycle sleeps making no writes;
otherwise the attempted heights are an ascending prefix of
`[start, min(start + BatchSize - 1, head)]`, and exactly that whole range
when no block fails. -/
theorem cycle_range_correct (co : CycleOracle) (db : DbState) (head : Nat)
    (hok : co.ckptReadOk = true) (hhead : co.head = some head) :
    (∀ c, cycleStart (some c) = c + 1) ∧
    cycleStart none = DEFAULT_START_BLOCK ∧
    (head < cycleStart (get_last_synced_block db) → runCycle co db = (db, [], [])) ∧
    (cycleStart (get_last_synced_block db) ≤ head →
      (∃ j, (runCycle co db).2.1 = (batchRange (get_last_synced_block db) head).take j) ∧
      ((∀ m ∈ batchRange (get_last_synced_block db) head,
          (processCore (co.perBlock m) m).1 ≠ .failed) →
        (runCycle co db).2.1 = batchRange (get_last_synced_block db) head) ∧
      List.Pairwise (· < ·) (runCycle co db).2.1) := by
  refine ⟨fun c => rfl, rfl, ?_, ?_⟩
  · intro hgt
    exact runCycle_caught_up co db head hok hhead hgt
  · intro hle
    rw [runCycle_active co db head hok hhead hle]
    refine ⟨runBatch_attempted_take _ _ _, ?_, ?_⟩
    · intro hnf
      refine runBatch_attempted_ok _ _ _ ?_
      intro m hm
      exact hnf m hm
    · obtain ⟨j, hj⟩ :=
        runBatch_attempted_take co.perBlock (batchRange (get_last_synced_block db) head) db
      rw [hj]
      exact List.Pairwise.sublist (List.take_sublist _ _) (batchRange_pairwise _ _)

/-- C6 (witness): with checkpoint 99 and head 101 the cycle attempts
exactly the heights 100 and 101 in order. -/
theorem cycle_range_correct_witness :
    (runCycle cycleA db99).2.1 = batchRange (get_last_synced_block db99) 101 ∧
    batchRange (get_last_synced_block db99) 101 = [100, 101] :=
  ⟨((cycle_range_correct cycleA db99 101 rfl rfl).2.2.2 (by decide)).2.1 (by decide),
   by decide⟩

/-! ## Claim C3: a MISSING block is skipped -/

/-- C3 (counterexample): block 100 is reported MISSING and skipped; block
101 of the same batch commits, so the checkpoint jumps to 101 and the next
cycle starts at 102 — height 100 is never retried. -/
theorem skip_leapfrogged :
    (processCore (cycleA.perBlock 100) 100).1 = .skipped ∧
    (runCycle cycleA db99).2.1 = [100, 101] ∧
    (runCycle cycleA db99).1.checkpoint = some 101 ∧
    (runCycle cycleB (runCycle cycleA db99).1).2.1 = [102, 103, 104, 105, 106] ∧
    100 ∉ (runCycle cycleB (runCycle cycleA db99).1).2.1 := by
  decide

/-- C3 (amended): on MISSING at height `n` the ingester commits the empty
transaction (the durable state is untouched), continues to the next height
without writing a checkpoint for `n`, and — provided nothing later in the
batch commits — the store is left unchanged, so a subsequent cycle with an
adequate head targets height `n` again. (When a later block of the batch
commits, the checkpoint passes `n` and `n` is not retried, as the
counterexample shows.) -/
theorem skip_semantics (ora : Nat → BlockOracle) (n : Nat) (rest : List Nat)
    (db : DbState) (hskip : (processCore (ora n) n).1 = .skipped) :
    (processBlock (ora n) n db).2 = db ∧
    (runBatch ora (n :: rest) db).2.1 = n :: (runBatch ora rest db).2.1 ∧
    (runBatch ora (n :: rest) db).2.2 = (runBatch ora rest db).2.2 ∧
    ((runBatch ora rest db).2.2 = [] → (runBatch ora (n :: rest) db).1 = db) ∧
    (∀ head', (runBatch ora rest db).2.2 = [] →
      cycleStart db.checkpoint ≤ n →
      n < cycleStart db.checkpoint + BLOCKS_PER_BATCH →
      n ≤ head' →
      n ∈ batchRange (get_last_synced_block (runBatch ora (n :: rest) db).1) head') := by
  have hst : (processBlock (ora n) n db).2 = db :=
    processBlock_skipped_state (ora n) n db hskip
  have ho : (processBlock (ora n) n db).1 = .skipped := hskip
  have hb : runBatch ora (n :: rest) db =
      ((runBatch ora rest db).1, n :: (runBatch ora rest db).2.1,
        (runBatch ora rest db).2.2) := by
    conv_lhs => rw [runBatch]
    simp only [ho, hst]
  refine ⟨hst, by rw [hb], by rw [hb], ?_, ?_⟩
  · intro hw
    rw [hb]
    exact runBatch_no_writes_state ora rest db hw
  · intro head' hw hle hup hh
    have hdb : (runBatch ora (n :: rest) db).1 = db := by
      rw [hb]
      exact runBatch_no_writes_state ora rest db hw
    rw [hdb]
    unfold batchRange get_last_synced_block
    rw [List.mem_range'_1]
    have hmin : n ≤ min (cycleStart db.checkpoint + BLOCKS_PER_BATCH - 1) head' := by
      apply Nat.le_min.mpr
      refine ⟨?_, hh⟩
      simp only [BLOCKS_PER_BATCH] at hup ⊢
      omega
    have hminge : cycleStart db.checkpoint ≤
        min (cycleStart db.checkpoint + BLOCKS_PER_BATCH - 1) head' :=
      Nat.le_trans hle hmin
    exact ⟨hle, by omega⟩

/-- C3 (amended, witness): height 100 skipped in a batch where nothing else
commits is targeted again by the following cycle. -/
theorem skip_semantics_witness :
    (processBlock (skipOracle 100 100) 100 db99).2 = db99 ∧
    100 ∈ batchRange (get_last_synced_block (runBatch (skipOracle 100) [100] db99).1) 200 :=
  ⟨(skip_semantics (skipOracle 100) 100 [] db99 rfl).1,
   (skip_semantics (skipOracle 100) 100 [] db99 rfl).2.2.2.2 200 rfl (by decide)
     (by decide) (by decide)⟩

/-! ## Inversion lemmas for the fold of a write trace (claim C7) -/

theorem insertTxRow_mem_inv {tbl : List TxRow} {r x : TxRow}
    (h : r ∈ insertTxRow tbl x) : r ∈ tbl ∨ r = x := by
  unfold insertTxRow at h
  split at h
  · exact Or.inl h
  · rcases List.mem_append.mp h with h | h
    · exact Or.inl h
    · simp only [List.mem_singleton] at h
      exact Or.inr h

theorem insertLogRow_mem_inv {tb : LogsTable} {p : Nat × LogRow} {x : LogRow}
    (h : p ∈ (insertLogRow tb x).rows) : p ∈ tb.rows ∨ p.2 = x := by
  unfold insertLogRow at h
  split at h
  · exact Or.inl h
  · rcases List.mem_append.mp h with h | h
    · exact Or.inl h
    · simp only [List.mem_singleton] at h
      exact Or.inr (by rw [h])

theorem foldl_txs_mem_inv :
    ∀ (ops : List DbOp) (d : DbState) (r : TxRow),
      r ∈ (ops.foldl applyOp d).txs →
      r ∈ d.txs ∨ ∃ t, DbOp.insTx t ∈ ops ∧ r = txRowOf t := by
  intro ops
  induction ops with
  | nil => intro d r h; exact Or.inl h
  | cons op rest ih =>
    intro d r h
    rcases ih (applyOp d op) r h with h1 | ⟨t, ht, hr⟩
    · cases op with
      | insTx x =>
        rcases insertTxRow_mem_inv h1 with h2 | h2
        · exact Or.inl h2
        · exact Or.inr ⟨x, List.mem_cons_self _ _, h2⟩
      | insBlock b => exact Or.inl h1
      | insLog l => exact Or.inl h1
      | setCkpt m => exact Or.inl h1
      | commitTx => exact Or.inl h1
    · exact Or.inr ⟨t, List.mem_cons_of_mem _ ht, hr⟩

theorem foldl_logs_mem_inv :
    ∀ (ops : List DbOp) (d : DbState) (p : Nat × LogRow),
      p ∈ (ops.foldl applyOp d).logs.rows →
      p ∈ d.logs.rows ∨ ∃ l, DbOp.insLog l ∈ ops ∧ p.2 = logRowOf l := by
  intro ops
  induction ops with
  | nil => intro d p h; exact Or.inl h
  | cons op rest ih =>
    intro d p h
    rcases ih (applyOp d op) p h with h1 | ⟨l, hl, hp⟩
    · cases op with
      | insLog x =>
        rcases insertLogRow_mem_inv h1 with h2 | h2
        · exact Or.inl h2
        · exact Or.inr ⟨x, List.mem_cons_self _ _, h2⟩
      | insBlock b => exact Or.inl h1
      | insTx t => exact Or.inl h1
      | setCkpt m => exact Or.inl h1
      | commitTx => exact Or.inl h1
    · exact Or.inr ⟨l, List.mem_cons_of_mem _ hl, hp⟩

theorem foldl_txs_mono {r : TxRow} :
    ∀ (ops : List DbOp) {d : DbState}, r ∈ d.txs → r ∈ (ops.foldl applyOp d).txs := by
  intro ops
  induction ops with
  | nil => intro d h; exact h
  | cons op rest ih => intro d h; exact ih (applyOp_txs_mono h op)

theorem insertTxRow_self_mem_of_fresh {tbl : List TxRow} {x : TxRow}
    (h : ∀ r ∈ tbl, r.tx_hash ≠ x.tx_hash) : x ∈ insertTxRow tbl x := by
  unfold insertTxRow
  split
  · next hc =>
    obtain ⟨r, hr, hk⟩ := List.any_eq_true.mp hc
    exact absurd (by simpa using hk) (h r hr)
  · exact List.mem_append_right _ (List.mem_singleton_self _)

/-- If the trace inserts `t`'s row, the store had no row with its key, and
no earlier insert in the trace carries its key, then `t`'s exact row is in
the folded state. -/
theorem foldl_insTx_present (t : MyTransaction) (ops1 ops2 : List DbOp) (d : DbState)
    (hdfresh : ∀ r ∈ d.txs, r.tx_hash ≠ (txRowOf t).tx_hash)
    (hops1 : ∀ t', DbOp.insTx t' ∈ ops1 → (txRowOf t').tx_hash ≠ (txRowOf t).tx_hash) :
    txRowOf t ∈ ((ops1 ++ DbOp.insTx t :: ops2).foldl applyOp d).txs := by
  rw [List.foldl_append, List.foldl_cons]
  have hfresh : ∀ r ∈ (ops1.foldl applyOp d).txs, r.tx_hash ≠ (txRowOf t).tx_hash := by
    intro r hr
    rcases foldl_txs_mem_inv ops1 d r hr with h | ⟨t', ht', hr'⟩
    · exact hdfresh r h
    · subst hr'
      exact hops1 t' ht'
  have hmem : txRowOf t ∈ (applyOp (ops1.foldl applyOp d) (DbOp.insTx t)).txs :=
    insertTxRow_self_mem_of_fresh hfresh
  exact foldl_txs_mono ops2 hmem

/-! ## Structure of `txsOps` for claim C7 -/

theorem txsOps_allOk (ora : BlockOracle)
    (hall : ∀ j, (fetchReceiptWithRetry (ora.receiptResp j)).1 ≠ none) :
    ∀ (ts : List EthersTx) (idx : Nat), (txsOps ora idx ts).1 = true := by
  intro ts
  induction ts with
  | nil => intro idx; rfl
  | cons t rest ih =>
    intro idx
    unfold txsOps
    cases hr : (fetchReceiptWithRetry (ora.receiptResp idx)).1 with
    | none => exact absurd hr (hall idx)
    | some ropt => simpa using ih (idx + 1)

theorem txsOps_insLog_inv (ora : BlockOracle) :
    ∀ (ts : List EthersTx) (idx : Nat) (l : MyLog),
      DbOp.insLog l ∈ (txsOps ora idx ts).2 →
      ∃ j r, (fetchReceiptWithRetry (ora.receiptResp j)).1 = some (some r) ∧
        ∃ le ∈ r.logs, l = mkMyLog le := by
  intro ts
  induction ts with
  | nil => intro idx l h; simp [txsOps] at h
  | cons t rest ih =>
    intro idx l h
    unfold txsOps at h
    cases hr : (fetchReceiptWithRetry (ora.receiptResp idx)).1 with
    | none => rw [hr] at h; simp at h
    | some ropt =>
      rw [hr] at h
      simp only [List.cons_append, List.mem_cons, List.mem_append] at h
      rcases h with h | h | h
      · exact DbOp.noConfusion h
      · cases ropt with
        | none => simp at h
        | some rc =>
          simp only [List.mem_map] at h
          obtain ⟨le, hle, hml⟩ := h
          refine ⟨idx, rc, hr, le, hle, ?_⟩
          injection hml with h2
          exact h2.symm
      · exact ih (idx + 1) l h

/-- The log-insert statements contributed by one receipt. -/
def logInsOf : Option Receipt → List DbOp
  | none => []
  | some r => r.logs.map (fun le => .insLog (mkMyLog le))

theorem txsOps_cons (ora : BlockOracle) (idx : Nat) (t : EthersTx)
    (rest : List EthersTx) (ropt : Option Receipt)
    (hr : (fetchReceiptWithRetry (ora.receiptResp idx)).1 = some ropt) :
    txsOps ora idx (t :: rest) =
      ((txsOps ora (idx + 1) rest).1,
        (DbOp.insTx (mkMyTransaction t (ropt.bind Receipt.status)) :: logInsOf ropt)
          ++ (txsOps ora (idx + 1) rest).2) := by
  cases ropt with
  | none =>
    conv_lhs => rw [txsOps]
    rw [hr]
    rfl
  | some rc =>
    conv_lhs => rw [txsOps]
    rw [hr]
    rfl

/-- Splitting `txsOps` at a prefix when every receipt fetch succeeds: the
prefix contributes insert statements whose transaction rows come from the
prefix's transactions. -/
theorem txsOps_decomp (ora : BlockOracle)
    (hall : ∀ j, (fetchReceiptWithRetry (ora.receiptResp j)).1 ≠ none) :
    ∀ (pre : List EthersTx) (idx : Nat) (tpost : List EthersTx),
      ∃ ops1, (txsOps ora idx (pre ++ tpost)).2 =
          ops1 ++ (txsOps ora (idx + pre.length) tpost).2 ∧
        ∀ t', DbOp.insTx t' ∈ ops1 → ∃ tp ∈ pre, ∃ st, t' = mkMyTransaction tp st := by
  intro pre
  induction pre with
  | nil =>
    intro idx tpost
    exact ⟨[], by simp, by simp⟩
  | cons p pre' ih =>
    intro idx tpost
    obtain ⟨ops1', hsplit', hmem'⟩ := ih (idx + 1) tpost
    cases hr : (fetchReceiptWithRetry (ora.receiptResp idx)).1 with
    | none => exact absurd hr (hall idx)
    | some ropt =>
      have hc := txsOps_cons ora idx p (pre' ++ tpost) ropt hr
      refine ⟨(DbOp.insTx (mkMyTransaction p (ropt.bind Receipt.status)) :: logInsOf ropt)
          ++ ops1', ?_, ?_⟩
      · show (txsOps ora idx (p :: (pre' ++ tpost))).2 = _
        rw [hc]
        show (DbOp.insTx (mkMyTransaction p (ropt.bind Receipt.status)) :: logInsOf ropt)
            ++ (txsOps ora (idx + 1) (pre' ++ tpost)).2 = _
        rw [hsplit']
        have hidx : idx + 1 + pre'.length = idx + (p :: pre').length := by
          simp only [List.length_cons]
          omega
        rw [hidx]
        simp [List.append_assoc]
      · intro t' ht'
        rcases List.mem_append.mp ht' with ht' | ht'
        · rcases List.mem_cons.mp ht' with ht' | ht'
          · exact ⟨p, List.mem_cons_self _ _, ropt.bind Receipt.status, DbOp.insTx.inj ht'⟩
          · cases hro : ropt with
            | none =>
              rw [hro] at ht'
              simp [logInsOf] at ht'
            | some rc =>
              rw [hro] at ht'
              simp only [logInsOf, List.mem_map] at ht'
              obtain ⟨le, _, hle⟩ := ht'
              exact absurd hle (fun h => DbOp.noConfusion h)
        · obtain ⟨tp, htp, st, hst⟩ := hmem' t' ht'
          exact ⟨tp, List.mem_cons_of_mem _ htp, st, hst⟩

/-! ## Claim C7: a MISSING receipt is not fatal -/

/-- C7: when the receipt for transaction `t` of block `n` is MISSING (the
provider answers `Ok(None)`) and every other receipt fetch succeeds, the
block still commits: the checkpoint advances to `n`, `t`'s transaction row
is written with `status = none`, and no log row for `t` is written. -/
theorem missing_receipt_not_fatal (ora : BlockOracle) (n : Nat) (db : DbState)
    (b : EthersBlock) (pre post : List EthersTx) (t : EthersTx)
    (hfb : (fetchBlockWithRetry ora.blockResp).1 = .found b)
    (hsplit : b.transactions = pre ++ t :: post)
    (hmiss : (fetchReceiptWithRetry (ora.receiptResp pre.length)).1 = some none)
    (hall : ∀ j, (fetchReceiptWithRetry (ora.receiptResp j)).1 ≠ none)
    (hnolog : ∀ j r, (fetchReceiptWithRetry (ora.receiptResp j)).1 = some (some r) →
      ∀ le ∈ r.logs, fmtH256 (le.transactionHash.getD 0) ≠ fmtH256 t.hash)
    (hpretx : ∀ r ∈ db.txs, r.tx_hash ≠ fmtH256 t.hash)
    (hdistinct : ∀ tp ∈ pre, fmtH256 tp.hash ≠ fmtH256 t.hash)
    (hprelog : ∀ p ∈ db.logs.rows, p.2.transaction_hash ≠ fmtH256 t.hash) :
    (processBlock ora n db).1 = .committedFull ∧
    (processBlock ora n db).2.checkpoint = some n ∧
    txRowOf (mkMyTransaction t none) ∈ (processBlock ora n db).2.txs ∧
    (txRowOf (mkMyTransaction t none)).status = none ∧
    ∀ p ∈ (processBlock ora n db).2.logs.rows,
      p.2.transaction_hash ≠ fmtH256 t.hash := by
  have hok : (txsOps ora 0 b.transactions).1 = true := txsOps_allOk ora hall _ 0
  have ho : (processCore ora n).1 = .committedFull := by
    unfold processCore
    rw [hfb]
    simp [hok]
  obtain ⟨b', hfb', hta, hops⟩ := processCore_committed_shape ora n ho
  have hbb : b' = b := by
    rw [hfb] at hfb'
    exact (BlockFetch.found.inj hfb').symm
  rw [hbb] at hops hta
  obtain ⟨ops1, hsplit2, hmem1⟩ := txsOps_decomp ora hall pre 0 (t :: post)
  have h0 : (0 : Nat) + pre.length = pre.length := Nat.zero_add _
  rw [h0] at hsplit2
  have hc := txsOps_cons ora pre.length t post none hmiss
  have hmid : (txsOps ora pre.length (t :: post)).2 =
      DbOp.insTx (mkMyTransaction t none) :: (txsOps ora (pre.length + 1) post).2 := by
    rw [hc]
    simp [logInsOf]
  have hsplitTrans : (txsOps ora 0 b.transactions).2 =
      ops1 ++ DbOp.insTx (mkMyTransaction t none) :: (txsOps ora (pre.length + 1) post).2 := by
    rw [hsplit, hsplit2, hmid]
  have hws : DbOp.insBlock (mkMyBlock b) :: (txsOps ora 0 b.transactions).2 ++ [DbOp.setCkpt n]
      = (DbOp.insBlock (mkMyBlock b) :: ops1) ++
          DbOp.insTx (mkMyTransaction t none) ::
            ((txsOps ora (pre.length + 1) post).2 ++ [DbOp.setCkpt n]) := by
    rw [hsplitTrans]
    simp [List.append_assoc]
  have hfinal : (processBlock ora n db).2 =
      (DbOp.insBlock (mkMyBlock b) :: (txsOps ora 0 b.transactions).2
        ++ [DbOp.setCkpt n]).foldl applyOp db := by
    show durableAfter db (processCore ora n).2 = _
    rw [hops]
    exact durableAfter_commit_last _ (committed_writes_no_commit ora n b) db
  refine ⟨ho, processBlock_committed_ckpt ora n db ho, ?_, rfl, ?_⟩
  · have hpres : txRowOf (mkMyTransaction t none) ∈
        (((DbOp.insBlock (mkMyBlock b) :: ops1) ++
          DbOp.insTx (mkMyTransaction t none) ::
            ((txsOps ora (pre.length + 1) post).2 ++ [DbOp.setCkpt n])).foldl
              applyOp db).txs := by
      apply foldl_insTx_present
      · intro r hr
        exact hpretx r hr
      · intro t' ht'
        rcases List.mem_cons.mp ht' with ht' | ht'
        · exact absurd ht' (fun h => DbOp.noConfusion h)
        · obtain ⟨tp, htp, st, hst⟩ := hmem1 t' ht'
          subst hst
          exact hdistinct tp htp
    rw [hfinal, hws]
    exact hpres
  · intro p hp
    rw [hfinal] at hp
    rcases foldl_logs_mem_inv _ db p hp with h | ⟨l, hl, hpl⟩
    · exact hprelog p h
    · rw [hpl]
      rcases List.mem_cons.mp hl with hl | hl
      · exact absurd hl (fun h => DbOp.noConfusion h)
      rcases List.mem_append.mp hl with hl | hl
      · obtain ⟨j, r, hjr, le, hler, hml⟩ := txsOps_insLog_inv ora b.transactions 0 l hl
        subst hml
        exact hnolog j r hjr le hler
      · simp only [List.mem_singleton] at hl
        exact absurd hl (fun h => DbOp.noConfusion h)

def c7Tx : EthersTx :=
  { hash := 77, blockNumber := some 600, blockHash := some 601,
    transactionIndex := some 0, fromAddr := 1, toAddr := none, value := 0,
    gasPrice := none, maxFeePerGas := none, maxPriorityFeePerGas := none,
    gas := 0, input := "0x" }

def c7Block : EthersBlock :=
  { number := some 600, hash := some 601, parentHash := 0, timestamp := 0,
    gasUsed := 0, gasLimit := 0, baseFeePerGas := none,
    transactions := [c7Tx] }

def c7Oracle : BlockOracle :=
  { blockResp := fun _ => .ok (some c7Block),
    receiptResp := fun _ _ => .ok none }

def c7Db : DbState :=
  { blocks := [], txs := [], logs := emptyLogs, checkpoint := some 599 }

/-- C7 (witness): block 600 with one transaction whose receipt is MISSING
still commits with the transaction recorded status-less and no logs. -/
theorem missing_receipt_not_fatal_witness :
    (processBlock c7Oracle 600 c7Db).1 = .committedFull ∧
    (processBlock c7Oracle 600 c7Db).2.checkpoint = some 600 ∧
    txRowOf (mkMyTransaction c7Tx none) ∈ (processBlock c7Oracle 600 c7Db).2.txs ∧
    (txRowOf (mkMyTransaction c7Tx none)).status = none ∧
    ∀ p ∈ (processBlock c7Oracle 600 c7Db).2.logs.rows,
      p.2.transaction_hash ≠ fmtH256 c7Tx.hash :=
  missing_receipt_not_fatal c7Oracle 600 c7Db c7Block [] [] c7Tx rfl rfl rfl
    (fun _ h => Option.noConfusion h)
    (fun _ r hjr _ _ => Option.noConfusion (Option.some.inj hjr))
    (by intro r hr; simp [c7Db] at hr)
    (by intro tp htp; simp at htp)
    (by intro p hp; simp [c7Db, emptyLogs] at hp)
